import Mathlib

/-!
Verification of the avai_v2 odds pipeline (odds-engine / odds-processor).

Shallow embedding conventions:
* Rust `f64` values are modelled as exact rationals (`ℚ`); `f64::round` is
  round-half-away-from-zero, `f64::floor` is `Int.floor`, `as i64` is
  truncation toward zero.
* Rust `i32`/`i64` are modelled as `ℤ` (no arithmetic in the modelled code
  comes near the overflow boundary on the inputs of interest).
* `HashMap`/`BTreeMap`/`VecDeque` state is modelled as association lists /
  lists, with the ordering or key-uniqueness invariants carried explicitly.
-/

namespace Avai

/-- Rust `f64::round`: round half away from zero. -/
def roundHalfAway (q : ℚ) : ℤ :=
  if 0 ≤ q then ⌊q + 1/2⌋ else ⌈q - 1/2⌉

/-! ### Fair odds (odds-processor/src/calculations/fair_odds.rs) -/

/-- Decode an integer-encoded odd at the given fixed-point scale:
`o as f64 / 10f64.powi(decimals)`. -/
def decodeOdd (decimals : ℕ) (o : ℤ) : ℚ := (o : ℚ) / 10 ^ decimals

/-- Sum of inverses of the decoded odds (`decimal_odds.iter().map(|&o| 1.0 / o).sum()`). -/
def sumInv (ds : List ℚ) : ℚ := (ds.map (fun d => 1 / d)).sum

/-- The per-element loop of `calculate_fair_odds`: for each decoded odd `d`,
the denominator is `n - margin * d`; a non-positive denominator aborts with
`None`, otherwise `round(((n * d) / (n - margin * d)) * 10^decimals)` is
emitted. -/
def fairLoop (n margin : ℚ) (decimals : ℕ) : List ℚ → Option (List ℤ)
  | [] => some []
  | d :: rest =>
      if n - margin * d ≤ 0 then none
      else
        match fairLoop n margin decimals rest with
        | none => none
        | some l => some (roundHalfAway (n * d / (n - margin * d) * 10 ^ decimals) :: l)

/-- `calculate_fair_odds` from fair_odds.rs: margin-proportional de-vig.
Rejects on wrong length, non-positive decoded odds, margin above 12%, or a
non-positive denominator. -/
def calculate_fair_odds (odds : List ℤ) (decimals : ℕ) (n : ℕ) : Option (List ℤ) :=
  if odds.length ≠ n then none
  else if (odds.map (decodeOdd decimals)).any (fun d => decide (d ≤ 0)) then none
  else if 12/100 < sumInv (odds.map (decodeOdd decimals)) - 1 then none
  else
    fairLoop (n : ℚ) (sumInv (odds.map (decodeOdd decimals)) - 1) decimals
      (odds.map (decodeOdd decimals))

/-! ### Monaco price transform and x12 projection (odds-engine/src/database/mod.rs) -/

/-- One price level of an outcome ladder. -/
structure PriceLevel where
  price : ℚ
  liquidity : ℚ
deriving DecidableEq

/-- `transform_price` from database/mod.rs: 1% margin then **floor** to the
fixed-point integer: `(((price - 1.0) * 0.99 + 1.0) * 1000.0).floor() as i32`. -/
def transform_price (p : ℚ) : ℤ := ⌊((p - 1) * (99/100) + 1) * 1000⌋

/-- One iteration of the x12 branch of `update_database_with_best_prices`:
find the outcome's index through the market mappings; if the index is below 3
and the ladder is non-empty, write `transform_price` of the best (first) level
into that slot. -/
def projectX12Step (mappings : String → Option ℕ) (acc : List ℤ)
    (entry : String × List PriceLevel) : List ℤ :=
  match mappings entry.1, entry.2 with
  | some idx, lvl :: _ => if idx < 3 then acc.set idx (transform_price lvl.price) else acc
  | _, _ => acc

/-- The x12 branch of `update_database_with_best_prices`: start from
`[0, 0, 0]` and fill slots from the order book. -/
def projectX12 (book : List (String × List PriceLevel)) (mappings : String → Option ℕ) :
    List ℤ :=
  book.foldl (projectX12Step mappings) [0, 0, 0]

/-! ### Processor cache eviction (odds-processor/src/cache/mod.rs) -/

/-- Ordering of the eviction-queue keys `(last_update, fixture_id)`: the
`BTreeMap<(i64, i64), ()>` iterates keys in lexicographic order, so its first
key is the minimum in this order. -/
def keyLe (a b : ℤ × ℤ) : Prop := a.1 < b.1 ∨ (a.1 = b.1 ∧ a.2 ≤ b.2)

instance keyLe.instDecidable (a b : ℤ × ℤ) : Decidable (keyLe a b) :=
  inferInstanceAs (Decidable (a.1 < b.1 ∨ (a.1 = b.1 ∧ a.2 ≤ b.2)))

/-- Eviction-queue key of a cache entry `(fixture_id, last_update)`. -/
def entryKey (e : ℤ × ℤ) : ℤ × ℤ := (e.2, e.1)

/-- First (smallest) key of the eviction queue: the entry minimal by
`(last_update, fixture_id)`; `none` on an empty cache. -/
def oldestEntry : List (ℤ × ℤ) → Option (ℤ × ℤ)
  | [] => none
  | e :: rest =>
      match oldestEntry rest with
      | none => some e
      | some m => if keyLe (entryKey e) (entryKey m) then some e else some m

/-- `Cache::apply_update` restricted to its eviction bookkeeping.  The cache is
an association list of `(fixture_id, last_update)` entries (the `BTreeMap`
eviction queue always mirrors it, so the minimum is computed directly).  A new
fixture at capacity first evicts the entry with the smallest key
(`evict_oldest`); an existing fixture is re-keyed to the update's timestamp.
Returns the new state and the evicted fixture id, if any. -/
def applyUpdateC (maxFixtures : ℕ) (st : List (ℤ × ℤ)) (fid ts : ℤ) :
    List (ℤ × ℤ) × Option ℤ :=
  if st.any (fun e => e.1 == fid) then
    (st.map (fun e => if e.1 = fid then (fid, ts) else e), none)
  else if maxFixtures ≤ st.length then
    match oldestEntry st with
    | some m => (st.filter (fun e => !(e.1 == m.1)) ++ [(fid, ts)], some m.1)
    | none => (st ++ [(fid, ts)], none)
  else (st ++ [(fid, ts)], none)

/-- Run a sequence of updates `(fixture_id, timestamp)` through the cache,
starting empty. -/
def runCache (maxFixtures : ℕ) (updates : List (ℤ × ℤ)) : List (ℤ × ℤ) :=
  updates.foldl (fun st u => (applyUpdateC maxFixtures st u.1 u.2).1) []

/-! ### Per-bookmaker history (odds-processor/src/cache/mod.rs, apply_update) -/

/-- A bookmaker snapshot: the upstream `timestamp` plus an abstract payload
standing for the odds columns of `current`. -/
structure SnapshotM where
  timestamp : ℤ
  payload : ℤ
deriving DecidableEq

/-- Per-bookmaker slot: `current` snapshot plus the history deque, newest at
the front (head of the list). -/
structure BookieState where
  current : SnapshotM
  history : List SnapshotM
deriving DecidableEq

/-- `BookmakerOdds::default()`: zero timestamp, empty history. -/
def initBookie : BookieState := ⟨⟨0, 0⟩, []⟩

/-- One update applied to a bookmaker slot: the update's `timestamp` and an
optional new payload (columns present in the update). -/
structure BookieUpdate where
  ts : ℤ
  newPayload : Option ℤ
deriving DecidableEq

/-- `history.push_front(current.clone()); if history.len() > 20
{ history.pop_back(); }`. -/
def pushHistory (cur : SnapshotM) (hist : List SnapshotM) : List SnapshotM :=
  if 20 < (cur :: hist).length then (cur :: hist).dropLast else cur :: hist

/-- The history/current portion of `Cache::apply_update` for one bookmaker:
if the current snapshot has a positive timestamp, a clone of it is pushed to
the front of the history (trimmed to 20); then the update overwrites
`current.timestamp` and any present columns. -/
def applyBookie (b : BookieState) (u : BookieUpdate) : BookieState :=
  { current :=
      match u.newPayload with
      | some p => SnapshotM.mk u.ts p
      | none => SnapshotM.mk u.ts b.current.payload
    history := if 0 < b.current.timestamp then pushHistory b.current b.history
               else b.history }

/-- Run a sequence of updates against a fresh bookmaker slot. -/
def runBookie (us : List BookieUpdate) : BookieState := us.foldl applyBookie initBookie

/-! ### Monaco order book (odds-engine/src/monaco/order_book.rs) -/

/-- Apply one `"Against"` price entry to an outcome's ladder
(`MonacoOrderBook::update`, inner loop): `position()` finds the first level at
the exact same price — remove it when `liquidity == 0`, otherwise overwrite its
liquidity; with no such level, `push` appends a new one only when
`liquidity > 0`. -/
def applyPriceUpdate (levels : List PriceLevel) (price liq : ℚ) : List PriceLevel :=
  match levels with
  | [] => if 0 < liq then [⟨price, liq⟩] else []
  | l :: rest =>
      if l.price = price then
        if liq = 0 then rest else ⟨price, liq⟩ :: rest
      else l :: applyPriceUpdate rest price liq

/-- The descending comparison `b.price.partial_cmp(&a.price)` used by
`sort_by` on a ladder. -/
def levelGe (a b : PriceLevel) : Prop := b.price ≤ a.price

instance levelGe.instDecidable (a b : PriceLevel) : Decidable (levelGe a b) :=
  inferInstanceAs (Decidable (b.price ≤ a.price))

instance levelGe.instIsTotal : IsTotal PriceLevel levelGe :=
  ⟨fun a b => le_total b.price a.price⟩

instance levelGe.instIsTrans : IsTrans PriceLevel levelGe :=
  ⟨fun _ _ _ h1 h2 => le_trans h2 h1⟩

/-- Apply all entries of one message for one outcome, then re-sort the touched
ladder by price descending. -/
def applyOutcomeMessage (levels : List PriceLevel) (msg : List (ℚ × ℚ)) : List PriceLevel :=
  (msg.foldl (fun ls u => applyPriceUpdate ls u.1 u.2) levels).insertionSort levelGe

/-- Run a sequence of price messages against an initially empty outcome
ladder. -/
def runLadder (msgs : List (List (ℚ × ℚ))) : List PriceLevel :=
  msgs.foldl applyOutcomeMessage []

/-! ### Filter DSL: per-line AND (odds-processor/src/filters/evaluator.rs) -/

/-- Evaluation outcome of one clause inside `per_line_and`: whether the clause
evaluated to true, and the line keys collected from the match traces the
clause appended (each key is the `{:.4}`-formatted line parsed from a `[line]`
bracket of a trace's left-operand path, represented here as an integer key).
A clause whose traces carry no line bracket contributes an empty key list and
is line-agnostic. -/
structure ClauseOutcome where
  passed : Bool
  lineMatches : List ℤ
deriving DecidableEq

/-- `evaluate_per_line_and`: an empty clause list passes; any failing clause
short-circuits to false; otherwise the line-key sets of the line-annotated
clauses are intersected and the result is non-emptiness of the
intersection (all-scalar clause lists pass). -/
def evaluatePerLineAnd (conds : List ClauseOutcome) : Bool :=
  if conds.isEmpty then true
  else if conds.any (fun c => !c.passed) then false
  else
    match (conds.filter (fun c => !c.lineMatches.isEmpty)).map ClauseOutcome.lineMatches with
    | [] => true
    | s0 :: rest =>
        !((rest.foldl (fun acc s => acc.filter (fun x => s.contains x)) s0).isEmpty)

/-! ### Filter DSL: aggregate path resolution (odds-processor/src/filters/path.rs) -/

/-- A bookmaker JSON object as seen by `resolve_aggregate`: each odds array
field is either absent (or not an array) — `none` — or a list of entries each
of which is a number or not (`as_f64`); the x12 fields are optional scalars. -/
structure BookmakerDoc where
  ah_lines : Option (List (Option ℚ)) := none
  ah_h : Option (List (Option ℚ)) := none
  ah_a : Option (List (Option ℚ)) := none
  fair_ah_h : Option (List (Option ℚ)) := none
  fair_ah_a : Option (List (Option ℚ)) := none
  ou_lines : Option (List (Option ℚ)) := none
  ou_o : Option (List (Option ℚ)) := none
  ou_u : Option (List (Option ℚ)) := none
  fair_ou_o : Option (List (Option ℚ)) := none
  fair_ou_u : Option (List (Option ℚ)) := none
  x12_h : Option ℚ := none
  x12_x : Option ℚ := none
  x12_a : Option ℚ := none
  fair_x12_h : Option ℚ := none
  fair_x12_x : Option ℚ := none
  fair_x12_a : Option ℚ := none

/-- `expand_line_array`: walk the field's array in step with the sibling lines
array; emit a `(value, field, some line)` triple exactly at the positions
where both the value and the line are numbers.  No zero filtering happens
here. -/
def expand_line_array (arr : Option (List (Option ℚ))) (field : String)
    (lines : List (Option ℚ)) : List (ℚ × String × Option ℚ) :=
  match arr with
  | none => []
  | some a =>
      (a.zip lines).filterMap fun p =>
        match p with
        | (some v, some l) => some (v, field, some l)
        | _ => none

/-- `expand_x12`: collect the present x12 (or `fair_x12`) scalars, in order
h, x, a; their paths carry no line label. -/
def expand_x12 (doc : BookmakerDoc) (fair : Bool) : List (ℚ × String × Option ℚ) :=
  if fair then
    (match doc.fair_x12_h with | some v => [(v, "fair_x12_h", none)] | none => []) ++
    (match doc.fair_x12_x with | some v => [(v, "fair_x12_x", none)] | none => []) ++
    (match doc.fair_x12_a with | some v => [(v, "fair_x12_a", none)] | none => [])
  else
    (match doc.x12_h with | some v => [(v, "x12_h", none)] | none => []) ++
    (match doc.x12_x with | some v => [(v, "x12_x", none)] | none => []) ++
    (match doc.x12_a with | some v => [(v, "x12_a", none)] | none => [])

/-- The `match part` arm of `resolve_aggregate`: expand an aggregate suffix
over a bookmaker object.  The ah/ou variants require the sibling lines array
and concatenate both sides. -/
def expandPart (doc : BookmakerDoc) (part : String) :
    Option (List (ℚ × String × Option ℚ)) :=
  if part = "ou" then
    match doc.ou_lines with
    | none => none
    | some ls => some (expand_line_array doc.ou_o "ou_o" ls ++
        expand_line_array doc.ou_u "ou_u" ls)
  else if part = "ah" then
    match doc.ah_lines with
    | none => none
    | some ls => some (expand_line_array doc.ah_h "ah_h" ls ++
        expand_line_array doc.ah_a "ah_a" ls)
  else if part = "x12" then some (expand_x12 doc false)
  else if part = "fair_ou" then
    match doc.ou_lines with
    | none => none
    | some ls => some (expand_line_array doc.fair_ou_o "fair_ou_o" ls ++
        expand_line_array doc.fair_ou_u "fair_ou_u" ls)
  else if part = "fair_ah" then
    match doc.ah_lines with
    | none => none
    | some ls => some (expand_line_array doc.fair_ah_h "fair_ah_h" ls ++
        expand_line_array doc.fair_ah_a "fair_ah_a" ls)
  else if part = "fair_x12" then some (expand_x12 doc true)
  else none

/-- `resolve_aggregate`: expansion of the aggregate suffix, with an overall
empty expansion resolving to `none`. -/
def resolve_aggregate (doc : BookmakerDoc) (part : String) :
    Option (List (ℚ × String × Option ℚ)) :=
  match expandPart doc part with
  | none => none
  | some vs => if vs.isEmpty then none else some vs

/-- Bookmaker object of the zero-value scenario: one ah line −0.5 with home
odds 0 and away odds 2. -/
def zeroAggDoc : BookmakerDoc :=
  { ah_lines := some [some (-1/2)], ah_h := some [some 0], ah_a := some [some 2] }

/-! ### Processor edge: enter/stay/leave (odds-processor/src/network/stream.rs) -/

/-- The cached fixture snapshot the edge reads when emitting a removal
(`FixtureData`): its id, per-bookmaker blobs, and last update time. -/
structure FixtureDataM where
  fixture_id : ℤ
  bookmakers : List (String × ℤ)
  last_update : ℤ

/-- Outgoing WebSocket message (the fields the enter/leave protocol speaks
about). -/
structure WsMessageM where
  msg_type : String
  fixture_id : ℤ
  bookmakers : List (String × ℤ)

/-- `FixtureData::to_odds_removed_message`: type `odds_removed`, **empty**
bookmakers map. -/
def to_odds_removed_message (f : FixtureDataM) : WsMessageM :=
  ⟨"odds_removed", f.fixture_id, []⟩

/-- One broadcast delivery to a filtered session (the send task of
`handle_socket`): `matching` is the session's matching-fixture set, `msg` the
broadcast update, `matchesNow` the filter verdict on `msg`, and `cached` the
cache entry for the fixture when a removal is emitted.  Enter and stay forward
the update (enter also records the fixture); leave drops the update, removes
the fixture from the set and emits the removal message if the fixture is still
cached; otherwise nothing is sent. -/
def handleBroadcastEvent (matching : List ℤ) (msg : WsMessageM) (matchesNow : Bool)
    (cached : Option FixtureDataM) : List ℤ × List WsMessageM :=
  if matchesNow then
    if matching.contains msg.fixture_id then (matching, [msg])
    else (msg.fixture_id :: matching, [msg])
  else
    if matching.contains msg.fixture_id then
      (matching.erase msg.fixture_id,
       match cached with
       | some f => [to_odds_removed_message f]
       | none => [])
    else (matching, [])

/-- A session processing a sequence of broadcast events, collecting every sent
message in order. -/
def runSession (matching : List ℤ) :
    List (WsMessageM × Bool × Option FixtureDataM) → List ℤ × List WsMessageM
  | [] => (matching, [])
  | e :: rest =>
      ((runSession (handleBroadcastEvent matching e.1 e.2.1 e.2.2).1 rest).1,
       (handleBroadcastEvent matching e.1 e.2.1 e.2.2).2 ++
         (runSession (handleBroadcastEvent matching e.1 e.2.1 e.2.2).1 rest).2)

/-! ### Filter DSL: history operand and provider plumbing
(odds-processor/src/filters/{context,arithmetic}.rs)

`resolve_json_path` / `get_array_at_path` over the fixture document, the line
parser `extract_line_from_path_str`, and the non-history pairing arms of
`evaluate_standard_arithmetic` are kept as parameters (`resolveData`,
`rawArr`, `elp`, `sc`): the theorems below hold for every behavior of those
primitives, which keeps the history dispatch — the part the claim is about —
fully concrete. -/

/-- `ResolvedValue`: a value sequence aligned with its path labels. -/
structure RVM where
  values : List ℚ
  paths : List String

/-- Arithmetic operators of `ComputedValue`. -/
inductive ArithOpM where
  | add
  | subtract
  | multiply
  | divide
  | history
deriving DecidableEq

/-- `ValueOrComputed` operands: numeric literal, field-path string (possibly a
`$var`), or nested computed expression. -/
inductive OperandM where
  | lit (v : ℚ)
  | fieldP (s : String)
  | comp (op : ArithOpM) (left right : OperandM)

/-- A historical snapshot as `evaluate_history` consumes it: its `timestamp`
field plus path resolution over its JSON body. -/
structure SnapDocM where
  timestamp : Option ℤ
  resolveF : String → Option RVM

/-- The evaluation context (`FilterContext`): path resolution over the
document, raw array access, bound variables, and the optional history
provider. -/
structure CtxM where
  resolveData : String → Option RVM
  rawArr : String → Option (List (Option ℚ))
  vars : List (String × RVM)
  historyProvider : Option (String → ℤ → Option SnapDocM)

/-- `FilterContext::new(data)`: no variables, **no history provider**. -/
def FilterContext_new (resolveData : String → Option RVM)
    (rawArr : String → Option (List (Option ℚ))) : CtxM :=
  ⟨resolveData, rawArr, [], none⟩

/-- `perform_op`: the four arithmetic operators (division by zero is absence);
`History` is "handled separately" and yields `None` here. -/
def perform_op (op : ArithOpM) (l r : ℚ) : Option ℚ :=
  match op with
  | .add => some (l + r)
  | .subtract => some (l - r)
  | .multiply => some (l * r)
  | .divide => if r = 0 then none else some (l / r)
  | .history => none

/-- `parse_bookmaker_path`: split `bookmakers.<label>.<rest>`. -/
def parse_bookmaker_path (path : String) : Option (String × String) :=
  match path.splitOn "." with
  | "bookmakers" :: bk :: rest =>
      if rest.isEmpty then none else some (bk, String.intercalate "." rest)
  | _ => none

/-- Rust `as i64` on an f64: truncation toward zero. -/
def truncQ (q : ℚ) : ℤ := if 0 ≤ q then ⌊q⌋ else ⌈q⌉

/-- The `@..ms(t:..)` suffix appended to a history result path. -/
def historySuffix (snap : SnapDocM) (maxAge : ℤ) : String :=
  match snap.timestamp with
  | some t => "@" ++ toString maxAge ++ "ms(t:" ++ toString t ++ ")"
  | none => "@" ++ toString maxAge ++ "ms"

/-- The per-path body of `evaluate_history`'s loop: parse the bookmaker, ask
the provider for the oldest in-window snapshot, resolve the field inside it
and keep line-compatible results (`continue` on any failure contributes
nothing). -/
def historyPathResults (elp : String → Option ℚ) (ctx : CtxM) (maxAge : ℤ)
    (path : String) : List (ℚ × String) :=
  match parse_bookmaker_path path with
  | none => []
  | some bf =>
      match ctx.historyProvider with
      | none => []
      | some provider =>
          match provider bf.1 maxAge with
          | none => []
          | some snap =>
              match snap.resolveF bf.2 with
              | none => []
              | some resolved =>
                  (resolved.values.zip resolved.paths).filterMap fun vp =>
                    match elp path with
                    | some origLine =>
                        match elp vp.2 with
                        | some resLine =>
                            if |origLine - resLine| ≤ 1/1000 then
                              some (vp.1, path ++ historySuffix snap maxAge)
                            else none
                        | none => none
                    | none => some (vp.1, path ++ historySuffix snap maxAge)

/-- `evaluate_history`: right operand's first value is the window in ms; the
oldest snapshot within it is resolved per left path; an empty result set is
absence. -/
def evaluate_history (elp : String → Option ℚ) (left right : RVM) (ctx : CtxM) :
    Option RVM :=
  match right.values.head? with
  | none => none
  | some q =>
      match left.paths.foldl (fun acc p => acc ++ historyPathResults elp ctx (truncQ q) p)
          [] with
      | [] => none
      | results => some ⟨results.map Prod.fst, results.map Prod.snd⟩

/-- `is_matchable_field`: ends with one of the odds suffixes. -/
def is_matchable_field (path : String) : Bool :=
  [".ah_h", ".ah_a", ".ou_o", ".ou_u", ".fair_ah_h", ".fair_ah_a", ".fair_ou_o",
   ".fair_ou_u", ".x12_h", ".x12_x", ".x12_a", ".fair_x12_h", ".fair_x12_x",
   ".fair_x12_a", ".ah", ".ou", ".x12", ".fair_ah", ".fair_ou", ".fair_x12"
  ].any (fun suf => path.endsWith suf)

/-- `should_use_line_matching`: both operand paths are matchable and bracket
free. -/
def should_use_line_matching (l r : String) : Bool :=
  is_matchable_field l && !(l.contains '[') && is_matchable_field r && !(r.contains '[')

/-- Substring test, as Rust's `str::contains` on a literal. -/
def containsSub (s sub : String) : Bool := 2 ≤ (s.splitOn sub).length

/-- `expand_aggregate_path`: expand an aggregate suffix into the specific
side fields, or fall back to the path with its last segment. -/
def expand_aggregate_path (path : String) : List (String × String) :=
  match [(".ah", ["ah_h", "ah_a"]), (".fair_ah", ["fair_ah_h", "fair_ah_a"]),
      (".ou", ["ou_o", "ou_u"]), (".fair_ou", ["fair_ou_o", "fair_ou_u"]),
      (".x12", ["x12_h", "x12_x", "x12_a"]),
      (".fair_x12", ["fair_x12_h", "fair_x12_x", "fair_x12_a"])].find?
      (fun e => path.endsWith e.1) with
  | some e => e.2.map (fun fld => (path.dropRight e.1.length ++ "." ++ fld, fld))
  | none => [(path, ((path.splitOn ".").getLast?).getD path)]

/-- `find_matching_right_path`: prefer the canonical fair/raw counterpart of
the left side, falling back to the same side. -/
def find_matching_right_path (leftSide : String)
    (rightExpanded : List (String × String)) : Option (String × String) :=
  rightExpanded.find? fun pr =>
    pr.2 = (if leftSide = "ah_h" then "fair_ah_h"
      else if leftSide = "ah_a" then "fair_ah_a"
      else if leftSide = "ou_o" then "fair_ou_o"
      else if leftSide = "ou_u" then "fair_ou_u"
      else if leftSide = "fair_ah_h" then "ah_h"
      else if leftSide = "fair_ah_a" then "ah_a"
      else if leftSide = "fair_ou_o" then "ou_o"
      else if leftSide = "fair_ou_u" then "ou_u"
      else if leftSide = "x12_h" then "fair_x12_h"
      else if leftSide = "x12_x" then "fair_x12_x"
      else if leftSide = "x12_a" then "fair_x12_a"
      else if leftSide = "fair_x12_h" then "x12_h"
      else if leftSide = "fair_x12_x" then "x12_x"
      else if leftSide = "fair_x12_a" then "x12_a"
      else leftSide) ∨ pr.2 = leftSide

/-- `rsplit_once('.')`: split off the last dot-separated segment. -/
def rsplitOnce (s : String) : Option (String × String) :=
  match s.splitOn "." with
  | [] => none
  | [_] => none
  | parts =>
      match parts.getLast? with
      | some last => some (String.intercalate "." parts.dropLast, last)
      | none => none

/-- The aligned line walk of `evaluate_with_line_matching`'s ah/ou branch:
for each left line (a non-numeric left line aborts the whole evaluation),
find the matching right line within 1e-3 and pair the two odds when both are
valid (> 1000); invalid entries are skipped. -/
def collectLinePairs (rightLines leftOdds rightOdds : List (Option ℚ)) :
    List (Option ℚ) → ℕ → Option (List (ℚ × ℚ × ℚ))
  | [], _ => some []
  | llv :: rest, i =>
      match llv with
      | none => none
      | some leftLine =>
          match collectLinePairs rightLines leftOdds rightOdds rest (i + 1) with
          | none => none
          | some tail =>
              match rightLines.findIdx? (fun rv =>
                  match rv with
                  | some q => decide (|q - leftLine| < 1/1000)
                  | none => false) with
              | none => some tail
              | some rIdx =>
                  match leftOdds.get? i with
                  | some (some lv) =>
                      if 1000 < lv then
                        match rightOdds.get? rIdx with
                        | some (some rv) =>
                            if 1000 < rv then some ((leftLine, lv, rv) :: tail)
                            else some tail
                        | _ => some tail
                      else some tail
                  | _ => some tail

/-- The loop of `evaluate_with_line_matching` over the expanded left sides:
x12 sides pair the two scalars, ah/ou sides pair line-matched valid odds;
every emitted result goes through `perform_op`, and the `?` failures abort the
whole evaluation. -/
def lineMatchLoop (ctx : CtxM) (op : ArithOpM) (re : List (String × String)) :
    List (String × String) → Option (List (ℚ × String))
  | [] => some []
  | ls :: rest =>
      match find_matching_right_path ls.2 re with
      | none => none
      | some rs =>
          match rsplitOnce ls.1 with
          | none => none
          | some lpar =>
              match rsplitOnce rs.1 with
              | none => none
              | some rpar =>
                  match lineMatchLoop ctx op re rest with
                  | none => none
                  | some tail =>
                      if containsSub ls.2 "x12" then
                        match ctx.resolveData ls.1 with
                        | none => none
                        | some lrv =>
                            match lrv.values.head? with
                            | none => none
                            | some lv =>
                                match ctx.resolveData rs.1 with
                                | none => none
                                | some rrv =>
                                    match rrv.values.head? with
                                    | none => none
                                    | some rv =>
                                        match perform_op op lv rv with
                                        | some res =>
                                            some ((res, lpar.1 ++ "." ++ ls.2) :: tail)
                                        | none => some tail
                      else
                        match ctx.rawArr (lpar.1 ++ "." ++
                            (if containsSub ls.2 "ah" then "ah_lines" else "ou_lines")) with
                        | none => none
                        | some leftLines =>
                            match ctx.rawArr (rpar.1 ++ "." ++
                                (if containsSub ls.2 "ah" then "ah_lines" else "ou_lines")) with
                            | none => none
                            | some rightLines =>
                                match ctx.rawArr ls.1 with
                                | none => none
                                | some leftOdds =>
                                    match ctx.rawArr rs.1 with
                                    | none => none
                                    | some rightOdds =>
                                        match collectLinePairs rightLines leftOdds
                                            rightOdds leftLines 0 with
                                        | none => none
                                        | some pairs =>
                                            some ((pairs.filterMap fun t =>
                                              (perform_op op t.2.1 t.2.2).map fun res =>
                                                (res, lpar.1 ++ "." ++ ls.2 ++ "[" ++
                                                  toString t.1 ++ "]")) ++ tail)

/-- `evaluate_with_line_matching`: run the loop; an empty result set is
absence. -/
def evaluate_with_line_matching (ctx : CtxM) (op : ArithOpM) (lp rp : String) :
    Option RVM :=
  match lineMatchLoop ctx op (expand_aggregate_path rp) (expand_aggregate_path lp) with
  | none => none
  | some results =>
      if results.isEmpty then none
      else some ⟨results.map Prod.fst, results.map Prod.snd⟩

/-- `ctx.vars.get(var_name)` for a `$var` path. -/
def lookupVar (ctx : CtxM) (name : String) : Option RVM :=
  (ctx.vars.find? (fun v => v.1 = name)).map Prod.snd

/-- `resolve_field` on a simple string path: `$var` lookup or document
resolution. -/
def resolveSimpleField (ctx : CtxM) (s : String) : Option RVM :=
  if s.startsWith "$" then lookupVar ctx (s.drop 1) else ctx.resolveData s

/-- `extract_field_path`: only a plain field-path operand yields a path. -/
def extractFieldPath : OperandM → Option String
  | .fieldP s => some s
  | _ => none

/-- `evaluate_arithmetic(_with_ctx)` over an operand tree: literals and field
paths resolve directly; a computed node with two matchable field-path operands
uses semantic line matching, otherwise both operands are resolved and the
operator dispatches — `History` to `evaluate_history`, the rest to the generic
pairing `sc`. -/
def evalOperand (elp : String → Option ℚ) (sc : ArithOpM → RVM → RVM → Option RVM)
    (ctx : CtxM) : OperandM → Option RVM
  | .lit v => some ⟨[v], ["literal"]⟩
  | .fieldP s => resolveSimpleField ctx s
  | .comp op l r =>
      match extractFieldPath l, extractFieldPath r with
      | some lp, some rp =>
          if should_use_line_matching lp rp then evaluate_with_line_matching ctx op lp rp
          else
            match evalOperand elp sc ctx l with
            | none => none
            | some lv =>
                match evalOperand elp sc ctx r with
                | none => none
                | some rv =>
                    if op = .history then evaluate_history elp lv rv ctx
                    else sc op lv rv
      | _, _ =>
          match evalOperand elp sc ctx l with
          | none => none
          | some lv =>
              match evalOperand elp sc ctx r with
              | none => none
              | some rv =>
                  if op = .history then evaluate_history elp lv rv ctx
                  else sc op lv rv

/-- `FieldPath`: simple dotted string or computed expression. -/
inductive FieldPathM where
  | simple (s : String)
  | computed (c : OperandM)

/-- `CompareOp` of a `Compare` node. -/
inductive CompareOpM where
  | eq
  | neq
  | gt
  | gte
  | lt
  | lte
  | inOp
  | existsOp
deriving DecidableEq

/-- `resolve_field_with_details`. -/
def resolveFieldWithDetails (elp : String → Option ℚ)
    (sc : ArithOpM → RVM → RVM → Option RVM) (ctx : CtxM) : FieldPathM → Option RVM
  | .simple s => resolveSimpleField ctx s
  | .computed c => evalOperand elp sc ctx c

/-- The scalar comparison of `evaluate_compare` (1e-5 tolerance on
equality). -/
def compareQ (l : ℚ) (op : CompareOpM) (r : ℚ) : Bool :=
  match op with
  | .eq => decide (|l - r| < 1/100000)
  | .neq => decide (1/100000 ≤ |l - r|)
  | .gt => decide (r < l)
  | .gte => decide (r ≤ l)
  | .lt => decide (l < r)
  | .lte => decide (l ≤ r)
  | _ => false

/-- `evaluate_compare`: an unresolvable field is an immediate non-match;
`exists` is satisfied by any resolution; `in` and the numeric comparators
follow the broadcast / position-wise / reject shape rules. -/
def evaluate_compare (elp : String → Option ℚ) (sc : ArithOpM → RVM → RVM → Option RVM)
    (ctx : CtxM) (field : FieldPathM) (op : CompareOpM) (value : Option OperandM) : Bool :=
  match resolveFieldWithDetails elp sc ctx field with
  | none => false
  | some left =>
      if op = .existsOp then true
      else
        match value with
        | none => false
        | some v =>
            match evalOperand elp sc ctx v with
            | none => false
            | some right =>
                if op = .inOp then
                  left.values.any fun lv =>
                    right.values.any fun rv => decide (|lv - rv| < 1/100000)
                else if right.values.length = 1 then
                  left.values.any fun lv => compareQ lv op (right.values.headD 0)
                else if left.values.length = right.values.length then
                  (left.values.zip right.values).any fun p => compareQ p.1 op p.2
                else false

/-- Outcome mapping of the concrete x12 scenario (`O1 ↦ 0, O2 ↦ 1, O3 ↦ 2`). -/
def exMapX12 : String → Option ℕ
  | "O1" => some 0
  | "O2" => some 1
  | "O3" => some 2
  | _ => none

/-- Outcome mapping with a single outcome `O1 ↦ 0`. -/
def exMapSingle : String → Option ℕ
  | "O1" => some 0
  | _ => none

-- THEOREMS BELOW

/-- Helper: `roundHalfAway` is the identity on integers. -/
theorem roundHalfAway_intCast (o : ℤ) : roundHalfAway (o : ℚ) = o := by
  unfold roundHalfAway
  split
  · refine Int.floor_eq_iff.mpr ⟨?_, ?_⟩ <;> linarith
  · refine Int.ceil_eq_iff.mpr ⟨?_, ?_⟩ <;> linarith

/-- Helper: closed form of the `fairLoop` recursion. -/
theorem fairLoop_eq (n margin : ℚ) (decimals : ℕ) (ds : List ℚ) :
    fairLoop n margin decimals ds =
      if ∃ d ∈ ds, n - margin * d ≤ 0 then none
      else some (ds.map fun d => roundHalfAway (n * d / (n - margin * d) * 10 ^ decimals)) := by
  induction ds with
  | nil => simp [fairLoop]
  | cons d rest ih =>
      simp only [fairLoop, ih]
      by_cases h : n - margin * d ≤ 0
      · have hc : ∃ x ∈ d :: rest, n - margin * x ≤ 0 := ⟨d, List.mem_cons_self d rest, h⟩
        rw [if_pos h, if_pos hc]
      · rw [if_neg h]
        by_cases h2 : ∃ x ∈ rest, n - margin * x ≤ 0
        · have hc : ∃ x ∈ d :: rest, n - margin * x ≤ 0 := by
            obtain ⟨x, hx, hle⟩ := h2
            exact ⟨x, List.mem_cons_of_mem _ hx, hle⟩
          rw [if_pos h2, if_pos hc]
        · have hc : ¬ ∃ x ∈ d :: rest, n - margin * x ≤ 0 := by
            rintro ⟨x, hx, hle⟩
            rcases List.mem_cons.mp hx with rfl | hx'
            · exact h hle
            · exact h2 ⟨x, hx', hle⟩
          rw [if_neg h2, if_neg hc, List.map_cons]

/-- Claim C1: `calculate_fair_odds` on a vector of integer-encoded odds at
decimals = 3 returns `none` exactly when the length differs from `n`, some
decoded value is non-positive, the margin exceeds 0.12, or some denominator
`n - margin * d` is non-positive; otherwise it returns the element-wise
`round(((n * d) / (n - margin * d)) * 10^3)`. -/
theorem fair_odds_characterization (odds : List ℤ) (n : ℕ) :
    calculate_fair_odds odds 3 n =
      if odds.length ≠ n ∨ (∃ o ∈ odds, decodeOdd 3 o ≤ 0) ∨
          12/100 < sumInv (odds.map (decodeOdd 3)) - 1 ∨
          (∃ o ∈ odds, (n : ℚ) - (sumInv (odds.map (decodeOdd 3)) - 1) * decodeOdd 3 o ≤ 0)
      then none
      else
        some (odds.map fun o =>
          roundHalfAway ((n : ℚ) * decodeOdd 3 o /
            ((n : ℚ) - (sumInv (odds.map (decodeOdd 3)) - 1) * decodeOdd 3 o) * 10 ^ (3 : ℕ))) := by
  unfold calculate_fair_odds
  rw [fairLoop_eq]
  by_cases h1 : odds.length ≠ n
  · rw [if_pos h1, if_pos (Or.inl h1)]
  · rw [if_neg h1]
    by_cases h2 : ∃ o ∈ odds, decodeOdd 3 o ≤ 0
    · have hany : ((odds.map (decodeOdd 3)).any fun d => decide (d ≤ 0)) = true := by
        simp only [List.any_eq_true, List.mem_map]
        obtain ⟨o, ho, hle⟩ := h2
        exact ⟨decodeOdd 3 o, ⟨o, ho, rfl⟩, by simpa using hle⟩
      rw [if_pos hany, if_pos (Or.inr (Or.inl h2))]
    · have hany : ¬ (((odds.map (decodeOdd 3)).any fun d => decide (d ≤ 0)) = true) := by
        simp only [List.any_eq_true, List.mem_map]
        rintro ⟨d, ⟨o, ho, rfl⟩, hle⟩
        exact h2 ⟨o, ho, by simpa using hle⟩
      rw [if_neg hany]
      by_cases h3 : 12/100 < sumInv (odds.map (decodeOdd 3)) - 1
      · rw [if_pos h3, if_pos (Or.inr (Or.inr (Or.inl h3)))]
      · rw [if_neg h3]
        by_cases h4 : ∃ o ∈ odds,
            (n : ℚ) - (sumInv (odds.map (decodeOdd 3)) - 1) * decodeOdd 3 o ≤ 0
        · have h4' : ∃ d ∈ odds.map (decodeOdd 3),
              (n : ℚ) - (sumInv (odds.map (decodeOdd 3)) - 1) * d ≤ 0 := by
            obtain ⟨o, ho, hle⟩ := h4
            exact ⟨decodeOdd 3 o, List.mem_map_of_mem _ ho, hle⟩
          rw [if_pos h4', if_pos (Or.inr (Or.inr (Or.inr h4)))]
        · have h4' : ¬ ∃ d ∈ odds.map (decodeOdd 3),
              (n : ℚ) - (sumInv (odds.map (decodeOdd 3)) - 1) * d ≤ 0 := by
            rintro ⟨d, hd, hle⟩
            obtain ⟨o, ho, rfl⟩ := List.mem_map.mp hd
            exact h4 ⟨o, ho, hle⟩
          have hrc : ¬ (odds.length ≠ n ∨ (∃ o ∈ odds, decodeOdd 3 o ≤ 0) ∨
              12/100 < sumInv (odds.map (decodeOdd 3)) - 1 ∨
              (∃ o ∈ odds, (n : ℚ) - (sumInv (odds.map (decodeOdd 3)) - 1) * decodeOdd 3 o ≤ 0)) := by
            rintro (hc | hc | hc | hc)
            · exact h1 hc
            · exact h2 hc
            · exact h3 hc
            · exact h4 hc
          rw [if_neg h4', if_neg hrc, List.map_map]
          rfl

/-- Claim C9 (corrected), counterexample to the original: the vector
`[-1000, 500]` has margin `M = 0` yet `calculate_fair_odds` rejects it (the
negative decoded odd trips the positivity check), so it does not return a
vector close to the input. -/
theorem fair_odds_roundtrip_counterexample :
    sumInv ([(-1000 : ℤ), 500].map (decodeOdd 3)) - 1 = 0 ∧
    calculate_fair_odds [-1000, 500] 3 2 = none := by
  constructor
  · norm_num [sumInv, decodeOdd]
  · norm_num [calculate_fair_odds, decodeOdd]

/-- Claim C9 (amended): on a vector of `n` positive integer-encoded odds whose
margin is exactly 0, `calculate_fair_odds` returns the input unchanged (hence
within 1 unit of the last encoded digit). -/
theorem fair_odds_roundtrip (odds : List ℤ) (n : ℕ) (hlen : odds.length = n)
    (hpos : ∀ o ∈ odds, 0 < decodeOdd 3 o)
    (hm : sumInv (odds.map (decodeOdd 3)) - 1 = 0) :
    calculate_fair_odds odds 3 n = some odds := by
  have hne : odds ≠ [] := by
    intro h
    rw [h] at hm
    simp [sumInv] at hm
  have hn0 : 0 < n := by
    rcases odds with _ | ⟨o, rest⟩
    · exact absurd rfl hne
    · rw [← hlen]; simp
  have hnQ : (0 : ℚ) < n := by exact_mod_cast hn0
  rw [fair_odds_characterization]
  have hcond : ¬ (odds.length ≠ n ∨ (∃ o ∈ odds, decodeOdd 3 o ≤ 0) ∨
      12/100 < sumInv (odds.map (decodeOdd 3)) - 1 ∨
      (∃ o ∈ odds, (n : ℚ) - (sumInv (odds.map (decodeOdd 3)) - 1) * decodeOdd 3 o ≤ 0)) := by
    rintro (hc | ⟨o, ho, hc⟩ | hc | ⟨o, ho, hc⟩)
    · exact hc hlen
    · exact absurd hc (not_le.mpr (hpos o ho))
    · rw [hm] at hc; norm_num at hc
    · rw [hm] at hc
      simp only [zero_mul, sub_zero] at hc
      linarith
  rw [if_neg hcond]
  congr 1
  have hfun : ∀ o : ℤ, roundHalfAway ((n : ℚ) * decodeOdd 3 o /
      ((n : ℚ) - (sumInv (odds.map (decodeOdd 3)) - 1) * decodeOdd 3 o) * 10 ^ (3 : ℕ)) = o := by
    intro o
    rw [hm, zero_mul, sub_zero, mul_div_cancel_left₀ _ hnQ.ne']
    have hd : decodeOdd 3 o * 10 ^ (3 : ℕ) = (o : ℚ) := by
      unfold decodeOdd
      rw [div_mul_cancel₀]
      norm_num
    rw [hd, roundHalfAway_intCast]
  simp only [hfun]
  exact List.map_id odds

/-- Claim C9, witness: the fair vector `[2000, 2000]` (margin 0) round-trips
to itself. -/
theorem fair_odds_roundtrip_witness :
    calculate_fair_odds [2000, 2000] 3 2 = some [2000, 2000] :=
  fair_odds_roundtrip [2000, 2000] 2 rfl (by norm_num [decodeOdd])
    (by norm_num [sumInv, decodeOdd])

/-- Helper: setting a list index and reading it back. -/
theorem listGetDSetSelf : ∀ (l : List ℤ) (i : ℕ) (v : ℤ), i < l.length →
    (l.set i v).getD i 0 = v
  | _ :: _, 0, _, _ => rfl
  | _ :: l, i + 1, v, h => listGetDSetSelf l i v (by simpa using h)

/-- Helper: setting one index leaves other indices unchanged. -/
theorem listGetDSetNe : ∀ (l : List ℤ) (i j : ℕ) (v : ℤ), i ≠ j →
    (l.set i v).getD j 0 = l.getD j 0
  | [], _, _, _, _ => rfl
  | _ :: _, 0, 0, _, h => absurd rfl h
  | _ :: _, 0, _ + 1, _, _ => rfl
  | _ :: _, _ + 1, 0, _, _ => rfl
  | _ :: l, i + 1, j + 1, v, h => listGetDSetNe l i j v (fun hc => h (by rw [hc]))

/-- Helper: setting at or past the length is a no-op. -/
theorem listSetOfLe : ∀ (l : List ℤ) (i : ℕ) (v : ℤ), l.length ≤ i → l.set i v = l
  | [], _, _, _ => rfl
  | a :: l, 0, v, h => absurd h (by simp)
  | a :: l, i + 1, v, h => by
      simp only [List.set]
      rw [listSetOfLe l i v (by simpa using h)]

/-- Helper: slot analysis of a single x12 projection step. -/
theorem projectX12Step_slot (mappings : String → Option ℕ) (acc : List ℤ)
    (e : String × List PriceLevel) (i : ℕ) :
    (projectX12Step mappings acc e).getD i 0 = acc.getD i 0 ∨
    ∃ lvl rest, e.2 = lvl :: rest ∧ mappings e.1 = some i ∧
      (projectX12Step mappings acc e).getD i 0 = transform_price lvl.price := by
  unfold projectX12Step
  cases hm : mappings e.1 with
  | none => cases e.2 <;> exact Or.inl rfl
  | some idx =>
      cases he : e.2 with
      | nil => exact Or.inl rfl
      | cons lvl rest =>
          dsimp only
          by_cases hidx : idx < 3
          · rw [if_pos hidx]
            by_cases hij : idx = i
            · subst hij
              by_cases hlen : idx < acc.length
              · exact Or.inr ⟨lvl, rest, rfl, rfl, listGetDSetSelf acc idx _ hlen⟩
              · rw [listSetOfLe acc idx _ (le_of_not_lt hlen)]
                exact Or.inl rfl
            · exact Or.inl (listGetDSetNe acc idx i _ hij)
          · rw [if_neg hidx]
            exact Or.inl rfl

/-- Helper: slot analysis of the x12 projection fold. -/
theorem projectX12_foldl_slot (mappings : String → Option ℕ) (i : ℕ) :
    ∀ (book : List (String × List PriceLevel)) (acc : List ℤ),
      (book.foldl (projectX12Step mappings) acc).getD i 0 = acc.getD i 0 ∨
      ∃ oid lvl rest, (oid, lvl :: rest) ∈ book ∧ mappings oid = some i ∧
        (book.foldl (projectX12Step mappings) acc).getD i 0 = transform_price lvl.price := by
  intro book
  induction book with
  | nil => intro _; exact Or.inl rfl
  | cons e tail ih =>
      intro acc
      rw [List.foldl_cons]
      rcases ih (projectX12Step mappings acc e) with h | ⟨oid, lvl, r, hmem, hmap, hv⟩
      · rw [h]
        rcases projectX12Step_slot mappings acc e i with h2 | ⟨lvl, rest, he, hmap, hv⟩
        · exact Or.inl h2
        · exact Or.inr ⟨e.1, lvl, rest, by rw [← he]; exact List.mem_cons_self e tail, hmap, hv⟩
      · exact Or.inr ⟨oid, lvl, r, List.mem_cons_of_mem _ hmem, hmap, hv⟩

/-- Claim C2 (corrected), counterexample to the original: at best price 2.91
the written integer is 2890 (the floor of 2890.9), while the nearest integer
to the margin-adjusted price is 2891. -/
theorem transform_price_round_counterexample :
    projectX12 [("O1", [⟨291/100, 10⟩])] exMapSingle = [2890, 0, 0] ∧
    round ((((291 : ℚ)/100 - 1) * (99/100) + 1) * 1000) = 2891 := by
  constructor
  · norm_num [projectX12, projectX12Step, transform_price, exMapSingle, List.foldl]
  · norm_num [round_eq]

/-- Claim C2 (amended): the integer written into an x12 odds slot is either
the default 0 or `⌊((p − 1) × 0.99 + 1) × 10^3⌋` for the best price `p` of an
outcome mapped to that slot (floor, not round); in particular best prices
1.95, 3.40, 4.20 encode to `[1940, 3376, 4168]`. -/
theorem transform_price_floor_slots (book : List (String × List PriceLevel))
    (mappings : String → Option ℕ) (i : ℕ) :
    (∀ p : ℚ, transform_price p = ⌊((p - 1) * (99/100) + 1) * 1000⌋) ∧
    ((projectX12 book mappings).getD i 0 = 0 ∨
      ∃ oid lvl rest, (oid, lvl :: rest) ∈ book ∧ mappings oid = some i ∧
        (projectX12 book mappings).getD i 0 = ⌊((lvl.price - 1) * (99/100) + 1) * 1000⌋) ∧
    projectX12 [("O1", [⟨39/20, 50⟩, ⟨9/5, 100⟩]), ("O2", [⟨17/5, 80⟩]), ("O3", [⟨21/5, 60⟩])]
        exMapX12 = [1940, 3376, 4168] := by
  refine ⟨fun _ => rfl, ?_,
    by norm_num [projectX12, projectX12Step, transform_price, exMapX12, List.foldl]⟩
  rcases projectX12_foldl_slot mappings i book [0, 0, 0] with h | ⟨oid, lvl, r, hmem, hmap, hv⟩
  · left
    rw [projectX12, h]
    rcases i with _ | _ | _ | i <;> rfl
  · right
    exact ⟨oid, lvl, r, hmem, hmap, hv⟩

/-- Helper: `keyLe` is reflexive. -/
theorem keyLe_refl (a : ℤ × ℤ) : keyLe a a := by
  unfold keyLe
  omega

/-- Helper: `keyLe` is total. -/
theorem keyLe_total (a b : ℤ × ℤ) : keyLe a b ∨ keyLe b a := by
  unfold keyLe
  omega

/-- Helper: `keyLe` is transitive. -/
theorem keyLe_trans {a b c : ℤ × ℤ} (h1 : keyLe a b) (h2 : keyLe b c) : keyLe a c := by
  unfold keyLe at h1 h2 ⊢
  omega

/-- Helper: `oldestEntry` is `none` only on the empty cache. -/
theorem oldestEntry_eq_none {l : List (ℤ × ℤ)} (h : oldestEntry l = none) : l = [] := by
  cases l with
  | nil => rfl
  | cons e rest =>
      exfalso
      unfold oldestEntry at h
      cases hr : oldestEntry rest with
      | none => rw [hr] at h; exact Option.noConfusion h
      | some m =>
          rw [hr] at h
          dsimp only at h
          by_cases hk : keyLe (entryKey e) (entryKey m)
          · rw [if_pos hk] at h; exact Option.noConfusion h
          · rw [if_neg hk] at h; exact Option.noConfusion h

/-- Helper: the oldest entry is a member of the cache. -/
theorem oldestEntry_mem : ∀ {l : List (ℤ × ℤ)} {m : ℤ × ℤ}, oldestEntry l = some m → m ∈ l := by
  intro l
  induction l with
  | nil => intro m h; exact Option.noConfusion h
  | cons e rest ih =>
      intro m h
      unfold oldestEntry at h
      cases hr : oldestEntry rest with
      | none =>
          rw [hr] at h
          dsimp only at h
          rw [← Option.some.inj h]
          exact List.mem_cons_self e rest
      | some m0 =>
          rw [hr] at h
          dsimp only at h
          by_cases hk : keyLe (entryKey e) (entryKey m0)
          · rw [if_pos hk] at h
            rw [← Option.some.inj h]
            exact List.mem_cons_self e rest
          · rw [if_neg hk] at h
            rw [← Option.some.inj h]
            exact List.mem_cons_of_mem _ (ih hr)

/-- Helper: the oldest entry's key is minimal among all cached entries. -/
theorem oldestEntry_min : ∀ {l : List (ℤ × ℤ)} {m : ℤ × ℤ}, oldestEntry l = some m →
    ∀ e ∈ l, keyLe (entryKey m) (entryKey e) := by
  intro l
  induction l with
  | nil => intro m h; exact Option.noConfusion h
  | cons a rest ih =>
      intro m h e he
      unfold oldestEntry at h
      cases hr : oldestEntry rest with
      | none =>
          rw [hr] at h
          dsimp only at h
          rw [oldestEntry_eq_none hr] at he
          rcases List.mem_cons.mp he with rfl | hc
          · rw [← Option.some.inj h]; exact keyLe_refl _
          · exact absurd hc (List.not_mem_nil e)
      | some m0 =>
          rw [hr] at h
          dsimp only at h
          by_cases hk : keyLe (entryKey a) (entryKey m0)
          · rw [if_pos hk] at h
            rw [← Option.some.inj h]
            rcases List.mem_cons.mp he with rfl | hc
            · exact keyLe_refl _
            · exact keyLe_trans hk (ih hr e hc)
          · rw [if_neg hk] at h
            rw [← Option.some.inj h]
            rcases List.mem_cons.mp he with rfl | hc
            · rcases keyLe_total (entryKey e) (entryKey m0) with h1 | h1
              · exact absurd h1 hk
              · exact h1
            · exact ih hr e hc

/-- Helper: a fixture id absent from the cache is absent from the key list. -/
theorem notMem_keys_of_not_any (st : List (ℤ × ℤ)) (fid : ℤ)
    (hex : ¬ (st.any (fun e => e.1 == fid) = true)) : fid ∉ st.map Prod.fst := by
  intro hc
  obtain ⟨e, he, hfe⟩ := List.mem_map.mp hc
  exact hex (List.any_eq_true.mpr ⟨e, he, by simp [hfe]⟩)

/-- Helper: `apply_update` preserves distinctness of the cached fixture ids. -/
theorem applyUpdateC_nodup (maxF : ℕ) (st : List (ℤ × ℤ)) (fid ts : ℤ)
    (h : (st.map Prod.fst).Nodup) :
    ((applyUpdateC maxF st fid ts).1.map Prod.fst).Nodup := by
  unfold applyUpdateC
  by_cases hex : st.any (fun e => e.1 == fid) = true
  · rw [if_pos hex]
    have heq : (st.map (fun e => if e.1 = fid then (fid, ts) else e)).map Prod.fst =
        st.map Prod.fst := by
      rw [List.map_map]
      apply List.map_congr_left
      intro e _
      by_cases h1 : e.1 = fid
      · simp [h1]
      · simp [h1]
    rw [heq]
    exact h
  · rw [if_neg hex]
    have hnotin := notMem_keys_of_not_any st fid hex
    have happ : ∀ (l : List (ℤ × ℤ)), (l.map Prod.fst).Nodup → fid ∉ l.map Prod.fst →
        ((l ++ [(fid, ts)]).map Prod.fst).Nodup := by
      intro l hl hni
      rw [List.map_append]
      refine List.Nodup.append hl (List.nodup_singleton fid) ?_
      intro x hx hx2
      rw [List.mem_singleton.mp hx2] at hx
      exact hni hx
    by_cases hful : maxF ≤ st.length
    · rw [if_pos hful]
      cases ho : oldestEntry st with
      | none => exact happ st h hnotin
      | some m =>
          have hsub : (st.filter (fun e => !(e.1 == m.1))).Sublist st := List.filter_sublist st
          have hsubm : ((st.filter (fun e => !(e.1 == m.1))).map Prod.fst).Sublist
              (st.map Prod.fst) := List.Sublist.map _ hsub
          exact happ _ (h.sublist hsubm) (fun hc => hnotin (hsubm.mem hc))
    · rw [if_neg hful]
      exact happ st h hnotin

/-- Helper: `apply_update` keeps the cache within capacity. -/
theorem applyUpdateC_length (maxF : ℕ) (st : List (ℤ × ℤ)) (fid ts : ℤ)
    (hmax : 1 ≤ maxF) (hlen : st.length ≤ maxF) :
    (applyUpdateC maxF st fid ts).1.length ≤ maxF := by
  unfold applyUpdateC
  by_cases hex : st.any (fun e => e.1 == fid) = true
  · rw [if_pos hex]
    simpa using hlen
  · rw [if_neg hex]
    by_cases hful : maxF ≤ st.length
    · rw [if_pos hful]
      have hne : st ≠ [] := by
        intro hc
        rw [hc] at hful
        simp at hful
        omega
      cases ho : oldestEntry st with
      | none => exact absurd (oldestEntry_eq_none ho) hne
      | some m =>
          have hm : m ∈ st := oldestEntry_mem ho
          have hlt : (st.filter (fun e => !(e.1 == m.1))).length < st.length := by
            refine List.length_filter_lt_length_iff_exists.mpr ⟨m, hm, ?_⟩
            simp
          simp only [List.length_append, List.length_cons, List.length_nil]
          omega
    · rw [if_neg hful]
      simp only [List.length_append, List.length_cons, List.length_nil]
      omega

/-- Helper: capacity and key-distinctness invariant of any run from the empty
cache. -/
theorem runCache_nodup_length (maxF : ℕ) (hmax : 1 ≤ maxF) (updates : List (ℤ × ℤ)) :
    ((runCache maxF updates).map Prod.fst).Nodup ∧ (runCache maxF updates).length ≤ maxF := by
  have main : ∀ (us : List (ℤ × ℤ)) (st : List (ℤ × ℤ)),
      (st.map Prod.fst).Nodup → st.length ≤ maxF →
      (((us.foldl (fun st u => (applyUpdateC maxF st u.1 u.2).1) st).map Prod.fst).Nodup ∧
        (us.foldl (fun st u => (applyUpdateC maxF st u.1 u.2).1) st).length ≤ maxF) := by
    intro us
    induction us with
    | nil => intro st h1 h2; exact ⟨h1, h2⟩
    | cons u rest ih =>
        intro st h1 h2
        rw [List.foldl_cons]
        exact ih _ (applyUpdateC_nodup maxF st u.1 u.2 h1)
          (applyUpdateC_length maxF st u.1 u.2 hmax h2)
  exact main updates [] (by simp) (by simp)

/-- Helper: whenever `apply_update` evicts, the evicted fixture was cached with
the lexicographically smallest `(last_update, fixture_id)` key, and every other
fixture survives. -/
theorem applyUpdateC_evict (maxF : ℕ) (st : List (ℤ × ℤ)) (fid ts ofid : ℤ)
    (h : (applyUpdateC maxF st fid ts).2 = some ofid) :
    ∃ ots, (ofid, ots) ∈ st ∧ (∀ e ∈ st, keyLe (ots, ofid) (entryKey e)) ∧
      (∀ e ∈ st, e.1 ≠ ofid → e ∈ (applyUpdateC maxF st fid ts).1) := by
  unfold applyUpdateC at h ⊢
  by_cases hex : st.any (fun e => e.1 == fid) = true
  · rw [if_pos hex] at h
    exact Option.noConfusion h
  · rw [if_neg hex] at h ⊢
    by_cases hful : maxF ≤ st.length
    · rw [if_pos hful] at h ⊢
      cases ho : oldestEntry st with
      | none =>
          rw [ho] at h
          exact Option.noConfusion h
      | some m =>
          rw [ho] at h
          dsimp only at h ⊢
          have hof : m.1 = ofid := Option.some.inj h
          refine ⟨m.2, ?_, ?_, ?_⟩
          · rw [← hof]
            have := oldestEntry_mem ho
            rwa [Prod.mk.eta]
          · intro e he
            have hmin := oldestEntry_min ho e he
            rw [← hof]
            exact hmin
          · intro e he hne
            apply List.mem_append_left
            refine List.mem_filter.mpr ⟨he, ?_⟩
            simp only [Bool.not_eq_eq_eq_not, Bool.not_true, beq_eq_false_iff_ne]
            rw [hof]
            exact hne
    · rw [if_neg hful] at h
      exact Option.noConfusion h

/-- Claim C3: after any sequence of `Cache::apply_update` calls from the empty
cache with capacity `max_fixtures ≥ 1`, the cache never holds more than
`max_fixtures` fixtures, and every eviction removes exactly the cached fixture
whose `(last_update, fixture_id)` pair is lexicographically smallest (oldest
`last_update` first, ties broken by smaller fixture id), leaving all other
fixtures in place. -/
theorem cache_eviction_correct (maxF : ℕ) (hmax : 1 ≤ maxF) (updates : List (ℤ × ℤ)) :
    (runCache maxF updates).length ≤ maxF ∧
    (∀ pre fid ts ofid,
      (applyUpdateC maxF (runCache maxF pre) fid ts).2 = some ofid →
      ∃ ots, (ofid, ots) ∈ runCache maxF pre ∧
        (∀ e ∈ runCache maxF pre, keyLe (ots, ofid) (entryKey e)) ∧
        (∀ e ∈ runCache maxF pre, e.1 ≠ ofid →
          e ∈ (applyUpdateC maxF (runCache maxF pre) fid ts).1)) :=
  ⟨(runCache_nodup_length maxF hmax updates).2,
   fun pre fid ts ofid h => applyUpdateC_evict maxF (runCache maxF pre) fid ts ofid h⟩

/-- Claim C3, witness: with capacity 1, applying `(5, 10)` then `(6, 20)`
keeps at most one fixture and the second apply evicts fixture 5. -/
theorem cache_eviction_correct_witness :
    (runCache 1 [(5, 10), (6, 20)]).length ≤ 1 ∧
    ∃ ots, ((5 : ℤ), ots) ∈ runCache 1 [(5, 10)] ∧
      (∀ e ∈ runCache 1 [(5, 10)], keyLe (ots, 5) (entryKey e)) ∧
      (∀ e ∈ runCache 1 [(5, 10)], e.1 ≠ 5 →
        e ∈ (applyUpdateC 1 (runCache 1 [(5, 10)]) 6 20).1) := by
  have h := cache_eviction_correct 1 (by norm_num) [(5, 10), (6, 20)]
  exact ⟨h.1, h.2 [(5, 10)] 6 20 5 (by decide)⟩

/-- Helper: pushing keeps the history within the 20-snapshot cap. -/
theorem pushHistory_length (cur : SnapshotM) (hist : List SnapshotM)
    (h : hist.length ≤ 20) : (pushHistory cur hist).length ≤ 20 := by
  unfold pushHistory
  by_cases hl : 20 < (cur :: hist).length
  · rw [if_pos hl]
    simp only [List.length_dropLast, List.length_cons]
    omega
  · rw [if_neg hl]
    simp only [List.length_cons] at hl ⊢
    omega

/-- Helper: the displaced snapshot sits at the front after a push. -/
theorem pushHistory_head (cur : SnapshotM) (hist : List SnapshotM) :
    (pushHistory cur hist).head? = some cur := by
  unfold pushHistory
  by_cases hl : 20 < (cur :: hist).length
  · rw [if_pos hl]
    cases hist with
    | nil => simp at hl
    | cons a t => rw [List.dropLast_cons₂]; rfl
  · rw [if_neg hl]
    rfl

/-- Helper: the history cap is preserved by every update. -/
theorem applyBookie_length (b : BookieState) (u : BookieUpdate)
    (h : b.history.length ≤ 20) : (applyBookie b u).history.length ≤ 20 := by
  unfold applyBookie
  by_cases hp : 0 < b.current.timestamp
  · simpa [hp] using pushHistory_length b.current b.history h
  · simpa [hp] using h

/-- Helper: sortedness and timestamp-dominance invariant along a run whose
update timestamps continue the current snapshot's timestamp monotonically. -/
theorem bookieSortedInv : ∀ (us : List BookieUpdate) (b : BookieState),
    ((b.history.map SnapshotM.timestamp).Sorted fun a c => c ≤ a) →
    (∀ s ∈ b.history, s.timestamp ≤ b.current.timestamp) →
    ((b.current.timestamp :: us.map BookieUpdate.ts).Chain' (· ≤ ·)) →
    (((us.foldl applyBookie b).history.map SnapshotM.timestamp).Sorted fun a c => c ≤ a) ∧
    (∀ s ∈ (us.foldl applyBookie b).history,
      s.timestamp ≤ (us.foldl applyBookie b).current.timestamp) := by
  intro us
  induction us with
  | nil => intro b h1 h2 _; exact ⟨h1, h2⟩
  | cons u rest ih =>
      intro b h1 h2 hch
      rw [List.map_cons, List.chain'_cons] at hch
      obtain ⟨hcu, hch'⟩ := hch
      rw [List.foldl_cons]
      have hcur : (applyBookie b u).current.timestamp = u.ts := by
        unfold applyBookie
        cases u.newPayload <;> rfl
      by_cases hp : 0 < b.current.timestamp
      · have hhist : (applyBookie b u).history = pushHistory b.current b.history := by
          unfold applyBookie
          simp [hp]
        refine ih (applyBookie b u) ?_ ?_ ?_
        · rw [hhist]
          unfold pushHistory
          have hsorted : ((b.current :: b.history).map SnapshotM.timestamp).Sorted
              fun a c => c ≤ a := by
            rw [List.map_cons]
            refine List.Pairwise.cons ?_ h1
            intro t ht
            obtain ⟨s, hs, rfl⟩ := List.mem_map.mp ht
            exact h2 s hs
          by_cases hl : 20 < (b.current :: b.history).length
          · rw [if_pos hl, List.map_dropLast]
            exact hsorted.sublist (List.dropLast_sublist _)
          · rw [if_neg hl]
            exact hsorted
        · intro s hs
          rw [hcur]
          rw [hhist] at hs
          unfold pushHistory at hs
          have hs' : s ∈ b.current :: b.history := by
            by_cases hl : 20 < (b.current :: b.history).length
            · rw [if_pos hl] at hs
              exact (List.dropLast_sublist _).mem hs
            · rw [if_neg hl] at hs
              exact hs
          rcases List.mem_cons.mp hs' with rfl | hmem
          · exact hcu
          · exact le_trans (h2 s hmem) hcu
        · rw [hcur]
          exact hch'
      · have hhist : (applyBookie b u).history = b.history := by
          unfold applyBookie
          simp [hp]
        refine ih (applyBookie b u) ?_ ?_ ?_
        · rw [hhist]; exact h1
        · intro s hs
          rw [hcur]
          rw [hhist] at hs
          exact le_trans (h2 s hs) hcu
        · rw [hcur]
          exact hch'

/-- Claim C7 (corrected), counterexample to the original: updates with
timestamps 100, 50, 70 leave a history whose timestamps from front to back are
`[50, 100]` — increasing, not non-increasing. -/
theorem bookie_history_counterexample :
    ((runBookie [⟨100, none⟩, ⟨50, none⟩, ⟨70, none⟩]).history.map SnapshotM.timestamp
      = [50, 100]) ∧
    ¬ (((runBookie [⟨100, none⟩, ⟨50, none⟩, ⟨70, none⟩]).history.map
        SnapshotM.timestamp).Sorted fun a c => c ≤ a) := by
  constructor
  · rfl
  · decide

/-- Claim C7 (amended): for every bookmaker slot, after any sequence of
`Cache::apply_update` calls the history holds at most 20 snapshots; a push
places the just-displaced current snapshot at the front and happens only when
the prior current timestamp was positive (in particular non-zero); and
**provided the applied updates carry non-decreasing timestamps**, the history
timestamps are non-increasing from front to back. -/
theorem bookie_history_invariants (us : List BookieUpdate) :
    (runBookie us).history.length ≤ 20 ∧
    (∀ (b : BookieState) (u : BookieUpdate), 0 < b.current.timestamp →
      (applyBookie b u).history.head? = some b.current) ∧
    (∀ (b : BookieState) (u : BookieUpdate), ¬ 0 < b.current.timestamp →
      (applyBookie b u).history = b.history) ∧
    ((us.map BookieUpdate.ts).Chain' (· ≤ ·) →
      (((runBookie us).history.map SnapshotM.timestamp).Sorted fun a c => c ≤ a)) := by
  refine ⟨?_, ?_, ?_, ?_⟩
  · have main : ∀ (vs : List BookieUpdate) (b : BookieState), b.history.length ≤ 20 →
        (vs.foldl applyBookie b).history.length ≤ 20 := by
      intro vs
      induction vs with
      | nil => intro b h; exact h
      | cons v tail ih =>
          intro b h
          rw [List.foldl_cons]
          exact ih _ (applyBookie_length b v h)
    exact main us initBookie (by simp [initBookie])
  · intro b u hp
    unfold applyBookie
    simpa [hp] using pushHistory_head b.current b.history
  · intro b u hp
    unfold applyBookie
    simp [hp]
  · intro hch
    cases us with
    | nil => simp [runBookie, initBookie]
    | cons u rest =>
        unfold runBookie
        rw [List.foldl_cons]
        have hstep : applyBookie initBookie u =
            { current := match u.newPayload with
                | some p => SnapshotM.mk u.ts p
                | none => SnapshotM.mk u.ts 0
              history := [] } := by
          unfold applyBookie initBookie
          norm_num
        have hcur : (applyBookie initBookie u).current.timestamp = u.ts := by
          rw [hstep]
          cases u.newPayload <;> rfl
        have hhist : (applyBookie initBookie u).history = [] := by
          rw [hstep]
        refine (bookieSortedInv rest (applyBookie initBookie u) ?_ ?_ ?_).1
        · rw [hhist]
          exact List.sorted_nil
        · intro s hs
          rw [hhist] at hs
          exact absurd hs (List.not_mem_nil s)
        · rw [hcur]
          rw [List.map_cons] at hch
          exact hch

/-- Claim C7, witness: a two-update run within the cap; the displaced snapshot
heads the history and the history timestamps are sorted non-increasingly. -/
theorem bookie_history_invariants_witness :
    (runBookie [⟨10, none⟩, ⟨20, some 7⟩]).history.length ≤ 20 ∧
    (applyBookie ⟨⟨10, 0⟩, []⟩ ⟨20, some 7⟩).history.head? = some ⟨10, 0⟩ ∧
    (((runBookie [⟨10, none⟩, ⟨20, some 7⟩]).history.map SnapshotM.timestamp).Sorted
      fun a c => c ≤ a) := by
  have h := bookie_history_invariants [⟨10, none⟩, ⟨20, some 7⟩]
  refine ⟨h.1, h.2.1 ⟨⟨10, 0⟩, []⟩ ⟨20, some 7⟩ (by norm_num), h.2.2.2 ?_⟩
  rw [show List.map BookieUpdate.ts [⟨10, none⟩, ⟨20, some 7⟩] = [10, 20] from rfl]
  exact List.chain'_pair.mpr (by norm_num)

/-- Helper: prices present after a price update come from the old ladder or
are the updated price. -/
theorem applyPriceUpdate_mem_price :
    ∀ (levels : List PriceLevel) (price liq x : ℚ),
      x ∈ (applyPriceUpdate levels price liq).map PriceLevel.price →
      x ∈ levels.map PriceLevel.price ∨ x = price := by
  intro levels
  induction levels with
  | nil =>
      intro price liq x hx
      unfold applyPriceUpdate at hx
      by_cases hl : 0 < liq
      · rw [if_pos hl] at hx
        simp only [List.map_cons, List.map_nil, List.mem_singleton] at hx
        exact Or.inr hx
      · rw [if_neg hl] at hx
        simp at hx
  | cons l rest ih =>
      intro price liq x hx
      unfold applyPriceUpdate at hx
      by_cases hp : l.price = price
      · rw [if_pos hp] at hx
        by_cases hq : liq = 0
        · rw [if_pos hq] at hx
          rw [List.map_cons]
          exact Or.inl (List.mem_cons_of_mem _ hx)
        · rw [if_neg hq] at hx
          rw [List.map_cons] at hx
          rcases List.mem_cons.mp hx with rfl | hx'
          · exact Or.inr rfl
          · rw [List.map_cons]
            exact Or.inl (List.mem_cons_of_mem _ hx')
      · rw [if_neg hp] at hx
        rw [List.map_cons] at hx
        rcases List.mem_cons.mp hx with rfl | hx'
        · rw [List.map_cons]
          exact Or.inl (List.mem_cons_self _ _)
        · rcases ih price liq x hx' with h | h
          · rw [List.map_cons]
            exact Or.inl (List.mem_cons_of_mem _ h)
          · exact Or.inr h

/-- Helper: distinct prices are preserved by a price update. -/
theorem applyPriceUpdate_nodup :
    ∀ (levels : List PriceLevel) (price liq : ℚ),
      (levels.map PriceLevel.price).Nodup →
      ((applyPriceUpdate levels price liq).map PriceLevel.price).Nodup := by
  intro levels
  induction levels with
  | nil =>
      intro price liq _
      unfold applyPriceUpdate
      by_cases hl : 0 < liq
      · rw [if_pos hl]; simp
      · rw [if_neg hl]; simp
  | cons l rest ih =>
      intro price liq h
      rw [List.map_cons, List.nodup_cons] at h
      obtain ⟨hni, hnd⟩ := h
      unfold applyPriceUpdate
      by_cases hp : l.price = price
      · rw [if_pos hp]
        by_cases hq : liq = 0
        · rw [if_pos hq]
          exact hnd
        · rw [if_neg hq]
          rw [List.map_cons, List.nodup_cons]
          refine ⟨?_, hnd⟩
          intro hc
          apply hni
          rw [hp]
          exact hc
      · rw [if_neg hp]
        rw [List.map_cons, List.nodup_cons]
        refine ⟨?_, ih price liq hnd⟩
        intro hc
        rcases applyPriceUpdate_mem_price rest price liq l.price hc with h1 | h1
        · exact hni h1
        · exact hp h1

/-- Helper: no retained level ever has zero liquidity. -/
theorem applyPriceUpdate_liq_ne :
    ∀ (levels : List PriceLevel) (price liq : ℚ),
      (∀ lvl ∈ levels, lvl.liquidity ≠ 0) →
      ∀ lvl ∈ applyPriceUpdate levels price liq, lvl.liquidity ≠ 0 := by
  intro levels
  induction levels with
  | nil =>
      intro price liq _ lvl hl
      unfold applyPriceUpdate at hl
      by_cases h0 : 0 < liq
      · rw [if_pos h0] at hl
        rw [List.mem_singleton.mp hl]
        exact ne_of_gt h0
      · rw [if_neg h0] at hl
        exact absurd hl (List.not_mem_nil lvl)
  | cons l rest ih =>
      intro price liq h lvl hl
      unfold applyPriceUpdate at hl
      by_cases hp : l.price = price
      · rw [if_pos hp] at hl
        by_cases hq : liq = 0
        · rw [if_pos hq] at hl
          exact h lvl (List.mem_cons_of_mem _ hl)
        · rw [if_neg hq] at hl
          rcases List.mem_cons.mp hl with rfl | hl'
          · exact hq
          · exact h lvl (List.mem_cons_of_mem _ hl')
      · rw [if_neg hp] at hl
        rcases List.mem_cons.mp hl with rfl | hl'
        · exact h lvl (List.mem_cons_self _ _)
        · exact ih price liq (fun s hs => h s (List.mem_cons_of_mem _ hs)) lvl hl'

/-- Helper: with non-negative update liquidities, every retained level keeps a
positive liquidity. -/
theorem applyPriceUpdate_liq_pos :
    ∀ (levels : List PriceLevel) (price liq : ℚ),
      (∀ lvl ∈ levels, 0 < lvl.liquidity) → 0 ≤ liq →
      ∀ lvl ∈ applyPriceUpdate levels price liq, 0 < lvl.liquidity := by
  intro levels
  induction levels with
  | nil =>
      intro price liq _ _ lvl hl
      unfold applyPriceUpdate at hl
      by_cases h0 : 0 < liq
      · rw [if_pos h0] at hl
        rw [List.mem_singleton.mp hl]
        exact h0
      · rw [if_neg h0] at hl
        exact absurd hl (List.not_mem_nil lvl)
  | cons l rest ih =>
      intro price liq h hq0 lvl hl
      unfold applyPriceUpdate at hl
      by_cases hp : l.price = price
      · rw [if_pos hp] at hl
        by_cases hq : liq = 0
        · rw [if_pos hq] at hl
          exact h lvl (List.mem_cons_of_mem _ hl)
        · rw [if_neg hq] at hl
          rcases List.mem_cons.mp hl with rfl | hl'
          · exact lt_of_le_of_ne hq0 (Ne.symm hq)
          · exact h lvl (List.mem_cons_of_mem _ hl')
      · rw [if_neg hp] at hl
        rcases List.mem_cons.mp hl with rfl | hl'
        · exact h lvl (List.mem_cons_self _ _)
        · exact ih price liq (fun s hs => h s (List.mem_cons_of_mem _ hs)) hq0 lvl hl'

/-- Helper: the un-sorted fold of one message preserves distinct prices. -/
theorem ladderFold_nodup (msg : List (ℚ × ℚ)) :
    ∀ (levels : List PriceLevel), (levels.map PriceLevel.price).Nodup →
      (((msg.foldl (fun ls u => applyPriceUpdate ls u.1 u.2) levels)).map
        PriceLevel.price).Nodup := by
  induction msg with
  | nil => intro levels h; exact h
  | cons u rest ih =>
      intro levels h
      rw [List.foldl_cons]
      exact ih _ (applyPriceUpdate_nodup levels u.1 u.2 h)

/-- Helper: the un-sorted fold of one message preserves non-zero liquidity. -/
theorem ladderFold_liq_ne (msg : List (ℚ × ℚ)) :
    ∀ (levels : List PriceLevel), (∀ lvl ∈ levels, lvl.liquidity ≠ 0) →
      ∀ lvl ∈ msg.foldl (fun ls u => applyPriceUpdate ls u.1 u.2) levels,
        lvl.liquidity ≠ 0 := by
  induction msg with
  | nil => intro levels h; exact h
  | cons u rest ih =>
      intro levels h
      rw [List.foldl_cons]
      exact ih _ (applyPriceUpdate_liq_ne levels u.1 u.2 h)

/-- Helper: the un-sorted fold of a non-negative message preserves positive
liquidity. -/
theorem ladderFold_liq_pos (msg : List (ℚ × ℚ)) :
    ∀ (levels : List PriceLevel), (∀ lvl ∈ levels, 0 < lvl.liquidity) →
      (∀ u ∈ msg, 0 ≤ u.2) →
      ∀ lvl ∈ msg.foldl (fun ls u => applyPriceUpdate ls u.1 u.2) levels,
        0 < lvl.liquidity := by
  induction msg with
  | nil => intro levels h _; exact h
  | cons u rest ih =>
      intro levels h hm
      rw [List.foldl_cons]
      exact ih _
        (applyPriceUpdate_liq_pos levels u.1 u.2 h (hm u (List.mem_cons_self u rest)))
        (fun v hv => hm v (List.mem_cons_of_mem _ hv))

/-- Helper: invariants of one full message application (fold then sort). -/
theorem applyOutcomeMessage_inv (levels : List PriceLevel) (msg : List (ℚ × ℚ))
    (hnd : (levels.map PriceLevel.price).Nodup)
    (hne : ∀ lvl ∈ levels, lvl.liquidity ≠ 0) :
    ((applyOutcomeMessage levels msg).map PriceLevel.price).Nodup ∧
    (∀ lvl ∈ applyOutcomeMessage levels msg, lvl.liquidity ≠ 0) ∧
    (applyOutcomeMessage levels msg).Sorted levelGe := by
  unfold applyOutcomeMessage
  have hperm := List.perm_insertionSort levelGe
    (msg.foldl (fun ls u => applyPriceUpdate ls u.1 u.2) levels)
  refine ⟨?_, ?_, List.sorted_insertionSort levelGe _⟩
  · exact ((hperm.map PriceLevel.price).nodup_iff).mpr (ladderFold_nodup msg levels hnd)
  · intro lvl hl
    exact ladderFold_liq_ne msg levels hne lvl (hperm.mem_iff.mp hl)

/-- Helper: positivity through one full message application. -/
theorem applyOutcomeMessage_pos (levels : List PriceLevel) (msg : List (ℚ × ℚ))
    (hpos : ∀ lvl ∈ levels, 0 < lvl.liquidity) (hmsg : ∀ u ∈ msg, 0 ≤ u.2) :
    ∀ lvl ∈ applyOutcomeMessage levels msg, 0 < lvl.liquidity := by
  unfold applyOutcomeMessage
  intro lvl hl
  have hperm := List.perm_insertionSort levelGe
    (msg.foldl (fun ls u => applyPriceUpdate ls u.1 u.2) levels)
  exact ladderFold_liq_pos msg levels hpos hmsg lvl (hperm.mem_iff.mp hl)

/-- Helper: ladder invariants along any run. -/
theorem runLadderAux : ∀ (msgs : List (List (ℚ × ℚ))) (levels : List PriceLevel),
    (levels.map PriceLevel.price).Nodup → (∀ lvl ∈ levels, lvl.liquidity ≠ 0) →
    levels.Sorted levelGe →
    ((msgs.foldl applyOutcomeMessage levels).map PriceLevel.price).Nodup ∧
    (∀ lvl ∈ msgs.foldl applyOutcomeMessage levels, lvl.liquidity ≠ 0) ∧
    (msgs.foldl applyOutcomeMessage levels).Sorted levelGe := by
  intro msgs
  induction msgs with
  | nil => intro levels h1 h2 h3; exact ⟨h1, h2, h3⟩
  | cons m rest ih =>
      intro levels h1 h2 _
      rw [List.foldl_cons]
      obtain ⟨g1, g2, g3⟩ := applyOutcomeMessage_inv levels m h1 h2
      exact ih _ g1 g2 g3

/-- Helper: positivity along any run with non-negative liquidities. -/
theorem runLadderPosAux : ∀ (msgs : List (List (ℚ × ℚ))) (levels : List PriceLevel),
    (∀ lvl ∈ levels, 0 < lvl.liquidity) → (∀ m ∈ msgs, ∀ u ∈ m, 0 ≤ u.2) →
    ∀ lvl ∈ msgs.foldl applyOutcomeMessage levels, 0 < lvl.liquidity := by
  intro msgs
  induction msgs with
  | nil => intro levels h _; exact h
  | cons m rest ih =>
      intro levels h hm
      rw [List.foldl_cons]
      exact ih _
        (applyOutcomeMessage_pos levels m h (hm m (List.mem_cons_self m rest)))
        (fun v hv => hm v (List.mem_cons_of_mem _ hv))

/-- Claim C4 (corrected), counterexample to the original: a level established
with liquidity 5 at price 2 and then updated with liquidity −1 at the same
price is retained with liquidity −1 ≤ 0. -/
theorem ladder_negative_liquidity_counterexample :
    runLadder [[(2, 5)], [(2, -1)]] = [⟨2, -1⟩] ∧
    ¬ (∀ lvl ∈ runLadder [[(2, 5)], [(2, -1)]], 0 < lvl.liquidity) := by
  have h1 : runLadder [[(2, 5)], [(2, -1)]] = [⟨2, -1⟩] := by
    norm_num [runLadder, applyOutcomeMessage, applyPriceUpdate, List.foldl,
      List.insertionSort, List.orderedInsert]
  refine ⟨h1, fun hall => ?_⟩
  have := hall ⟨2, -1⟩ (by rw [h1]; exact List.mem_singleton_self _)
  norm_num at this

/-- Claim C4 (amended): starting from an empty Monaco order book, after every
sequence of `MonacoOrderBook::update` messages each outcome's ladder is sorted
strictly descending by price with pairwise-distinct prices, and every retained
level has liquidity ≠ 0; when every update's liquidity is non-negative, every
retained level has liquidity > 0 (a negative update can leave a non-positive
liquidity in place). -/
theorem ladder_invariants (msgs : List (List (ℚ × ℚ))) :
    (((runLadder msgs).map PriceLevel.price).Sorted fun a c => c < a) ∧
    (∀ lvl ∈ runLadder msgs, lvl.liquidity ≠ 0) ∧
    ((∀ m ∈ msgs, ∀ u ∈ m, 0 ≤ u.2) → ∀ lvl ∈ runLadder msgs, 0 < lvl.liquidity) := by
  obtain ⟨h1, h2, h3⟩ := runLadderAux msgs [] (by simp) (by simp) List.sorted_nil
  refine ⟨?_, h2, fun hmsgs => runLadderPosAux msgs [] (by simp) hmsgs⟩
  rw [List.Sorted, List.pairwise_map]
  have hnd : (runLadder msgs).Pairwise fun a c => a.price ≠ c.price :=
    List.pairwise_map.mp h1
  have hboth := h3.and hnd
  exact hboth.imp fun h => lt_of_le_of_ne h.1 (Ne.symm h.2)

/-- Claim C4, witness: a single message with two positive levels yields a
strictly descending, all-positive ladder. -/
theorem ladder_invariants_witness :
    (((runLadder [[(2, 5), (3, 4)]]).map PriceLevel.price).Sorted fun a c => c < a) ∧
    (∀ lvl ∈ runLadder [[(2, 5), (3, 4)]], 0 < lvl.liquidity) := by
  have h := ladder_invariants [[(2, 5), (3, 4)]]
  refine ⟨h.1, h.2.2 ?_⟩
  intro m hm u hu
  rw [List.mem_singleton.mp hm] at hu
  rcases List.mem_cons.mp hu with rfl | hu'
  · norm_num
  · rw [List.mem_singleton.mp hu']
    norm_num

/-- Helper: membership in the iterated intersection filter. -/
theorem foldFilter_mem : ∀ (sets : List (List ℤ)) (s0 : List ℤ) (x : ℤ),
    (x ∈ sets.foldl (fun acc s => acc.filter (fun y => s.contains y)) s0) ↔
      (x ∈ s0 ∧ ∀ s ∈ sets, x ∈ s) := by
  intro sets
  induction sets with
  | nil =>
      intro s0 x
      simp
  | cons s rest ih =>
      intro s0 x
      rw [List.foldl_cons, ih]
      constructor
      · rintro ⟨hmem, hall⟩
        obtain ⟨h0, hs⟩ := List.mem_filter.mp hmem
        refine ⟨h0, fun t ht => ?_⟩
        rcases List.mem_cons.mp ht with rfl | ht'
        · simpa using hs
        · exact hall t ht'
      · rintro ⟨h0, hall⟩
        refine ⟨List.mem_filter.mpr ⟨h0, ?_⟩, fun t ht => hall t (List.mem_cons_of_mem _ ht)⟩
        simpa using hall s (List.mem_cons_self _ _)

/-- Claim C5: `evaluate_per_line_and` returns true exactly when some line key
`L` satisfies every clause, where a clause with no line-annotated matches
counts as satisfied at every line and a failed clause is satisfied nowhere; in
particular it returns false whenever some clause is unsatisfied everywhere. -/
theorem per_line_and_correct (conds : List ClauseOutcome) :
    evaluatePerLineAnd conds = true ↔
      ∃ L : ℤ, ∀ c ∈ conds, c.passed = true ∧ (c.lineMatches = [] ∨ L ∈ c.lineMatches) := by
  unfold evaluatePerLineAnd
  by_cases hemp : conds.isEmpty
  · rw [if_pos hemp]
    have he : conds = [] := List.isEmpty_iff.mp hemp
    subst he
    simp
  · rw [if_neg hemp]
    by_cases hfail : conds.any (fun c => !c.passed) = true
    · rw [if_pos hfail]
      constructor
      · intro h
        exact absurd h (by simp)
      · rintro ⟨L, hL⟩
        obtain ⟨c, hc, hcp⟩ := List.any_eq_true.mp hfail
        have hp := (hL c hc).1
        rw [hp] at hcp
        simp at hcp
    · rw [if_neg hfail]
      have hallpass : ∀ c ∈ conds, c.passed = true := by
        intro c hc
        by_contra hcp
        refine hfail (List.any_eq_true.mpr ⟨c, hc, ?_⟩)
        simp only [Bool.not_eq_true] at hcp
        simp [hcp]
      cases hsets : (conds.filter (fun c => !c.lineMatches.isEmpty)).map
          ClauseOutcome.lineMatches with
      | nil =>
          dsimp only
          constructor
          · intro _
            refine ⟨0, fun c hc => ⟨hallpass c hc, Or.inl ?_⟩⟩
            by_contra hne
            have hcf : c ∈ conds.filter (fun c => !c.lineMatches.isEmpty) :=
              List.mem_filter.mpr ⟨hc, by simp [hne]⟩
            have hmm : c.lineMatches ∈ (conds.filter
                (fun c => !c.lineMatches.isEmpty)).map ClauseOutcome.lineMatches :=
              List.mem_map_of_mem _ hcf
            rw [hsets] at hmm
            exact absurd hmm (List.not_mem_nil _)
          · intro _
            rfl
      | cons s0 rest =>
          dsimp only
          constructor
          · intro h
            have hne : rest.foldl (fun acc s => acc.filter (fun x => s.contains x)) s0 ≠ [] := by
              intro hc
              rw [hc] at h
              simp at h
            obtain ⟨x, hx⟩ := List.exists_mem_of_ne_nil _ hne
            have hx' := (foldFilter_mem rest s0 x).mp hx
            refine ⟨x, fun c hc => ⟨hallpass c hc, ?_⟩⟩
            by_cases hce : c.lineMatches = []
            · exact Or.inl hce
            · right
              have hcf : c.lineMatches ∈ s0 :: rest := by
                rw [← hsets]
                exact List.mem_map_of_mem _ (List.mem_filter.mpr ⟨hc, by simp [hce]⟩)
              rcases List.mem_cons.mp hcf with heq | hmem
              · rw [heq]
                exact hx'.1
              · exact hx'.2 _ hmem
          · rintro ⟨L, hL⟩
            have hsetsmem : ∀ s ∈ s0 :: rest, L ∈ s := by
              intro s hs
              rw [← hsets] at hs
              obtain ⟨c, hcf, rfl⟩ := List.mem_map.mp hs
              obtain ⟨hc, hcne⟩ := List.mem_filter.mp hcf
              rcases (hL c hc).2 with hnil | hmem
              · rw [hnil] at hcne
                simp at hcne
              · exact hmem
            have hLmem : L ∈ rest.foldl (fun acc s => acc.filter (fun x => s.contains x)) s0 :=
              (foldFilter_mem rest s0 L).mpr
                ⟨hsetsmem s0 (List.mem_cons_self _ _),
                 fun s hs => hsetsmem s (List.mem_cons_of_mem _ hs)⟩
            cases hf : rest.foldl (fun acc s => acc.filter (fun x => s.contains x)) s0 with
            | nil =>
                rw [hf] at hLmem
                exact absurd hLmem (List.not_mem_nil L)
            | cons a t => rfl

/-- Helper: indexing into a zip. -/
theorem zipGet {α β : Type} : ∀ (a : List α) (b : List β) (i : ℕ) (x : α × β),
    ((a.zip b).get? i = some x) ↔ (a.get? i = some x.1 ∧ b.get? i = some x.2) := by
  intro a
  induction a with
  | nil =>
      intro b i x
      simp
  | cons a0 ta ih =>
      intro b i x
      cases b with
      | nil => simp
      | cons b0 bt =>
          cases i with
          | zero =>
              constructor
              · intro h
                have hx := Option.some.inj h
                rw [← hx]
                exact ⟨rfl, rfl⟩
              · rintro ⟨h1, h2⟩
                have e1 := Option.some.inj h1
                have e2 := Option.some.inj h2
                show some (a0, b0) = some x
                rw [e1, e2]
          | succ n =>
              exact ih bt n x

/-- Helper: membership in `expand_line_array`. -/
theorem expand_line_array_mem (arr : Option (List (Option ℚ))) (field : String)
    (lines : List (Option ℚ)) (v : ℚ) (F : String) (L : Option ℚ) :
    ((v, F, L) ∈ expand_line_array arr field lines) ↔
      (F = field ∧ ∃ i lq a, L = some lq ∧ arr = some a ∧
        a.get? i = some (some v) ∧ lines.get? i = some (some lq)) := by
  cases arr with
  | none => simp [expand_line_array]
  | some a =>
      simp only [expand_line_array, List.mem_filterMap]
      constructor
      · rintro ⟨p, hp, hf⟩
        obtain ⟨i, hi⟩ := List.mem_iff_get?.mp hp
        rcases p with ⟨pv, pl⟩
        cases pv with
        | none => exact absurd hf (by simp)
        | some v' =>
            cases pl with
            | none => exact absurd hf (by simp)
            | some l' =>
                have h3 := Option.some.inj hf
                rw [Prod.mk.injEq, Prod.mk.injEq] at h3
                obtain ⟨hv, hF, hL⟩ := h3
                obtain ⟨h1, h2⟩ := (zipGet a lines i (some v', some l')).mp hi
                refine ⟨hF.symm, i, l', a, hL.symm, rfl, ?_, h2⟩
                rw [← hv]
                exact h1
      · rintro ⟨hF, i, lq, a', hL, ha, hva, hll⟩
        have haa : a' = a := (Option.some.inj ha).symm
        subst haa
        refine ⟨(some v, some lq), ?_, ?_⟩
        · exact List.mem_iff_get?.mpr ⟨i, (zipGet a' lines i (some v, some lq)).mpr ⟨hva, hll⟩⟩
        · show some (v, field, some lq) = some (v, F, L)
          rw [hF, hL]

/-- Helper: membership of a single optional x12 scalar expansion. -/
theorem x12Single_mem (o : Option ℚ) (fld : String) (v : ℚ) (F : String) (L : Option ℚ) :
    ((v, F, L) ∈ (match o with
      | some w => [(w, fld, (none : Option ℚ))]
      | none => ([] : List (ℚ × String × Option ℚ)))) ↔
      (L = none ∧ F = fld ∧ o = some v) := by
  cases o with
  | none => simp
  | some w =>
      constructor
      · intro h
        rw [List.mem_singleton, Prod.mk.injEq, Prod.mk.injEq] at h
        obtain ⟨h1, h2, h3⟩ := h
        exact ⟨h3, h2, by rw [h1]⟩
      · rintro ⟨hL, hF, ho⟩
        rw [List.mem_singleton, Prod.mk.injEq, Prod.mk.injEq]
        exact ⟨(Option.some.inj ho).symm, hF, hL⟩

/-- Helper: the expansion of `zeroAggDoc`'s ah aggregate, zero value
included. -/
theorem zeroAggDoc_resolved :
    resolve_aggregate zeroAggDoc "ah" =
      some [(0, "ah_h", some (-1/2)), (2, "ah_a", some (-1/2))] := by
  rfl

/-- Claim C8 (corrected), counterexample to the original: resolving the `.ah`
aggregate over a bookmaker whose home odds at line −0.5 are 0 keeps the zero
value in the result — aggregate expansion does not filter zeros. -/
theorem resolve_aggregate_zero_counterexample :
    resolve_aggregate zeroAggDoc "ah" =
      some [(0, "ah_h", some (-1/2)), (2, "ah_a", some (-1/2))] ∧
    ((0 : ℚ), "ah_h", some (-(1:ℚ)/2)) ∈ (resolve_aggregate zeroAggDoc "ah").getD [] := by
  refine ⟨zeroAggDoc_resolved, ?_⟩
  rw [zeroAggDoc_resolved]
  exact List.mem_cons_self _ _

/-- Claim C8 (amended): resolving the `.ah` aggregate over a bookmaker object
yields exactly the value of each side at each position carrying both a numeric
value and a numeric line, labelled with the side's field name and its `[line]`
(and `.x12` yields exactly the present scalars); zero values are **not**
filtered out of aggregate expansions (zero filtering happens only in direct
field resolution). -/
theorem resolve_aggregate_members (doc : BookmakerDoc) (ls : List (Option ℚ))
    (hls : doc.ah_lines = some ls) (r : List (ℚ × String × Option ℚ))
    (hr : resolve_aggregate doc "ah" = some r) :
    (∀ v F L, ((v, F, L) ∈ r) ↔
      ((F = "ah_h" ∧ ∃ i lq a, L = some lq ∧ doc.ah_h = some a ∧
        a.get? i = some (some v) ∧ ls.get? i = some (some lq)) ∨
       (F = "ah_a" ∧ ∃ i lq a, L = some lq ∧ doc.ah_a = some a ∧
        a.get? i = some (some v) ∧ ls.get? i = some (some lq)))) ∧
    (∀ v F, ((v, F, (none : Option ℚ)) ∈ expand_x12 doc false) ↔
      ((F = "x12_h" ∧ doc.x12_h = some v) ∨ (F = "x12_x" ∧ doc.x12_x = some v) ∨
       (F = "x12_a" ∧ doc.x12_a = some v))) := by
  constructor
  · have he : expandPart doc "ah" = some (expand_line_array doc.ah_h "ah_h" ls ++
        expand_line_array doc.ah_a "ah_a" ls) := by
      unfold expandPart
      rw [if_neg (by decide), if_pos rfl, hls]
    unfold resolve_aggregate at hr
    rw [he] at hr
    dsimp only at hr
    by_cases hemp : (expand_line_array doc.ah_h "ah_h" ls ++
        expand_line_array doc.ah_a "ah_a" ls).isEmpty
    · rw [if_pos hemp] at hr
      exact absurd hr (by simp)
    · rw [if_neg hemp] at hr
      have hre := (Option.some.inj hr).symm
      subst hre
      intro v F L
      rw [List.mem_append, expand_line_array_mem, expand_line_array_mem]
  · intro v F
    unfold expand_x12
    rw [if_neg (by simp)]
    rw [List.mem_append, List.mem_append, x12Single_mem, x12Single_mem, x12Single_mem]
    simp
    tauto

/-- Claim C8, witness: the membership characterization applied to
`zeroAggDoc` at the zero-valued home entry. -/
theorem resolve_aggregate_members_witness :
    ("ah_h" = "ah_h" ∧ ∃ i lq a, (some (-(1:ℚ)/2) : Option ℚ) = some lq ∧
      zeroAggDoc.ah_h = some a ∧ a.get? i = some (some 0) ∧
      [(some (-(1:ℚ)/2) : Option ℚ)].get? i = some (some lq)) ∨
    ("ah_h" = "ah_a" ∧ ∃ i lq a, (some (-(1:ℚ)/2) : Option ℚ) = some lq ∧
      zeroAggDoc.ah_a = some a ∧ a.get? i = some (some 0) ∧
      [(some (-(1:ℚ)/2) : Option ℚ)].get? i = some (some lq)) := by
  have h := resolve_aggregate_members zeroAggDoc [some (-1/2)] rfl
    [(0, "ah_h", some (-1/2)), (2, "ah_a", some (-1/2))] zeroAggDoc_resolved
  exact (h.1 0 "ah_h" (some (-1/2))).mp (List.mem_cons_self _ _)

/-- Helper: a filtered session whose matching set lacks fixture `F` stays
silent over any run of non-matching events for `F`. -/
theorem sessionSilent : ∀ (evs : List (WsMessageM × Bool × Option FixtureDataM))
    (matching : List ℤ) (F : ℤ),
    matching.contains F = false →
    (∀ ev ∈ evs, ev.1.fixture_id = F ∧ ev.2.1 = false) →
    (runSession matching evs).2 = [] := by
  intro evs
  induction evs with
  | nil => intro matching F _ _; rfl
  | cons e rest ih =>
      intro matching F hF hall
      obtain ⟨hfid, hmn⟩ := hall e (List.mem_cons_self e rest)
      have hstep : handleBroadcastEvent matching e.1 e.2.1 e.2.2 = (matching, []) := by
        unfold handleBroadcastEvent
        rw [hmn, hfid, hF]
        simp
      unfold runSession
      rw [hstep]
      dsimp only
      rw [List.nil_append]
      exact ih matching F hF (fun ev hev => hall ev (List.mem_cons_of_mem _ hev))

/-- Claim C6: on a filtered session, a broadcast update for a currently
matching fixture whose filter verdict turns false causes exactly one message —
the `odds_removed` message for that fixture with an empty bookmakers map — and
the triggering update is not forwarded; the fixture leaves the matching set,
and no further messages for it are produced while the filter keeps failing.
When the fixture was not matching and the verdict is false, nothing is sent
and the state is unchanged. -/
theorem enter_leave_semantics (matching : List ℤ) (msg : WsMessageM) (f : FixtureDataM) :
    (matching.contains msg.fixture_id = true →
      (handleBroadcastEvent matching msg false (some f)).2 = [to_odds_removed_message f] ∧
      (to_odds_removed_message f).msg_type = "odds_removed" ∧
      (to_odds_removed_message f).bookmakers = [] ∧
      (∀ m ∈ (handleBroadcastEvent matching msg false (some f)).2,
        m.msg_type ≠ "odds_update") ∧
      (matching.Nodup →
        (handleBroadcastEvent matching msg false (some f)).1.contains msg.fixture_id
          = false)) ∧
    (matching.contains msg.fixture_id = false →
      ∀ c, (handleBroadcastEvent matching msg false c).2 = [] ∧
        (handleBroadcastEvent matching msg false c).1 = matching) ∧
    (∀ evs : List (WsMessageM × Bool × Option FixtureDataM),
      matching.contains msg.fixture_id = false →
      (∀ ev ∈ evs, ev.1.fixture_id = msg.fixture_id ∧ ev.2.1 = false) →
      (runSession matching evs).2 = []) := by
  refine ⟨?_, ?_, ?_⟩
  · intro hc
    have hmem : msg.fixture_id ∈ matching := by simpa using hc
    have hout : (handleBroadcastEvent matching msg false (some f)).2 =
        [to_odds_removed_message f] := by
      simp [handleBroadcastEvent, hmem]
    refine ⟨hout, rfl, rfl, ?_, ?_⟩
    · intro m hm
      rw [hout] at hm
      rw [List.mem_singleton.mp hm]
      show ("odds_removed" : String) ≠ "odds_update"
      decide
    · intro hnd
      have h1 : (handleBroadcastEvent matching msg false (some f)).1 =
          matching.erase msg.fixture_id := by
        simp [handleBroadcastEvent, hmem]
      rw [h1]
      have hnm : msg.fixture_id ∉ matching.erase msg.fixture_id := by
        intro hmem
        exact absurd ((List.Nodup.mem_erase_iff hnd).mp hmem).1 (by simp)
      simpa using hnm
  · intro hc c
    have hnm : msg.fixture_id ∉ matching := by simpa using hc
    constructor <;> simp [handleBroadcastEvent, hnm]
  · intro evs hc hall
    exact sessionSilent evs matching msg.fixture_id hc hall

/-- Claim C6, witness: fixture 7 leaves the matching set with exactly one
empty-bookmakers removal message, and a further non-matching update for it
produces nothing. -/
theorem enter_leave_semantics_witness :
    (handleBroadcastEvent [7] ⟨"odds_update", 7, [("B", 1)]⟩ false
      (some ⟨7, [("B", 1)], 5⟩)).2 = [to_odds_removed_message ⟨7, [("B", 1)], 5⟩] ∧
    (to_odds_removed_message (⟨7, [("B", 1)], 5⟩ : FixtureDataM)).bookmakers = [] ∧
    (runSession ((handleBroadcastEvent [7] ⟨"odds_update", 7, [("B", 1)]⟩ false
        (some ⟨7, [("B", 1)], 5⟩)).1)
      [(⟨"odds_update", 7, [("B", 2)]⟩, false, some ⟨7, [("B", 2)], 6⟩)]).2 = [] := by
  have h := enter_leave_semantics [7] ⟨"odds_update", 7, [("B", 1)]⟩ ⟨7, [("B", 1)], 5⟩
  have h1 := h.1 (by decide)
  have h2 := enter_leave_semantics
    ((handleBroadcastEvent [7] ⟨"odds_update", 7, [("B", 1)]⟩ false
      (some ⟨7, [("B", 1)], 5⟩)).1) ⟨"odds_update", 7, [("B", 2)]⟩ ⟨7, [("B", 2)], 6⟩
  refine ⟨h1.1, h1.2.2.1, ?_⟩
  exact h2.2.2 [(⟨"odds_update", 7, [("B", 2)]⟩, false, some ⟨7, [("B", 2)], 6⟩)]
    (by decide)
    (by
      intro ev hev
      rw [List.mem_singleton.mp hev]
      exact ⟨rfl, rfl⟩)

/-- Helper: with no provider, each history path contributes nothing. -/
theorem historyPathResults_no_provider (elp : String → Option ℚ) (ctx : CtxM)
    (h : ctx.historyProvider = none) (maxAge : ℤ) (p : String) :
    historyPathResults elp ctx maxAge p = [] := by
  unfold historyPathResults
  cases hpb : parse_bookmaker_path p with
  | none => rfl
  | some bf =>
      dsimp only
      rw [h]

/-- Helper: with no provider, `evaluate_history` always yields absence. -/
theorem evaluate_history_no_provider (elp : String → Option ℚ) (ctx : CtxM)
    (h : ctx.historyProvider = none) (left right : RVM) :
    evaluate_history elp left right ctx = none := by
  unfold evaluate_history
  cases hq : right.values.head? with
  | none => rfl
  | some q =>
      dsimp only
      have hfold : ∀ (ps : List String) (acc : List (ℚ × String)),
          ps.foldl (fun acc p => acc ++ historyPathResults elp ctx (truncQ q) p) acc
            = acc := by
        intro ps
        induction ps with
        | nil => intro acc; rfl
        | cons p rest ih =>
            intro acc
            rw [List.foldl_cons, historyPathResults_no_provider elp ctx h, List.append_nil,
              ih]
      rw [hfold]

/-- Helper: the semantic line-matching loop never emits a result for the
`history` operator (`perform_op` is `None` on it). -/
theorem lineMatchLoop_history (ctx : CtxM) (re : List (String × String)) :
    ∀ le, lineMatchLoop ctx .history re le = none ∨
      lineMatchLoop ctx .history re le = some [] := by
  intro le
  induction le with
  | nil => exact Or.inr rfl
  | cons ls rest ih =>
      unfold lineMatchLoop
      cases find_matching_right_path ls.2 re with
      | none => exact Or.inl rfl
      | some rs =>
          dsimp only
          cases rsplitOnce ls.1 with
          | none => exact Or.inl rfl
          | some lpar =>
              dsimp only
              cases rsplitOnce rs.1 with
              | none => exact Or.inl rfl
              | some rpar =>
                  dsimp only
                  rcases ih with hih | hih
                  · rw [hih]
                    exact Or.inl rfl
                  · rw [hih]
                    dsimp only
                    by_cases hx : containsSub ls.2 "x12"
                    · rw [if_pos hx]
                      cases ctx.resolveData ls.1 with
                      | none => exact Or.inl rfl
                      | some lrv =>
                          dsimp only
                          cases lrv.values.head? with
                          | none => exact Or.inl rfl
                          | some lv =>
                              dsimp only
                              cases ctx.resolveData rs.1 with
                              | none => exact Or.inl rfl
                              | some rrv =>
                                  dsimp only
                                  cases rrv.values.head? with
                                  | none => exact Or.inl rfl
                                  | some rv => exact Or.inr rfl
                    · rw [if_neg hx]
                      cases ctx.rawArr (lpar.1 ++ "." ++
                          (if containsSub ls.2 "ah" then "ah_lines" else "ou_lines")) with
                      | none => exact Or.inl rfl
                      | some leftLines =>
                          dsimp only
                          cases ctx.rawArr (rpar.1 ++ "." ++
                              (if containsSub ls.2 "ah" then "ah_lines" else "ou_lines")) with
                          | none => exact Or.inl rfl
                          | some rightLines =>
                              dsimp only
                              cases ctx.rawArr ls.1 with
                              | none => exact Or.inl rfl
                              | some leftOdds =>
                                  dsimp only
                                  cases ctx.rawArr rs.1 with
                                  | none => exact Or.inl rfl
                                  | some rightOdds =>
                                      dsimp only
                                      cases collectLinePairs rightLines leftOdds rightOdds
                                          leftLines 0 with
                                      | none => exact Or.inl rfl
                                      | some pairs =>
                                          dsimp only
                                          right
                                          have hfm : (pairs.filterMap fun t =>
                                              (perform_op ArithOpM.history t.2.1
                                                t.2.2).map fun res =>
                                                (res, lpar.1 ++ "." ++ ls.2 ++ "[" ++
                                                  toString t.1 ++ "]")) = [] :=
                                            List.filterMap_eq_nil_iff.mpr
                                              (fun a _ => rfl)
                                          rw [hfm]
                                          rfl

/-- Helper: the line-matching entry point yields absence on `history`. -/
theorem evaluate_with_line_matching_history (ctx : CtxM) (lp rp : String) :
    evaluate_with_line_matching ctx .history lp rp = none := by
  unfold evaluate_with_line_matching
  rcases lineMatchLoop_history ctx (expand_aggregate_path rp)
    (expand_aggregate_path lp) with h | h
  · rw [h]
  · rw [h]
    rfl

/-- Claim C10: `FilterContext::new` — used by both the snapshot-on-subscribe
path and the broadcast path of the Processor edge — carries no history
provider; with no provider, `evaluate_history` resolves to absence, a
`history` node resolves to absence through every dispatch branch of the
arithmetic evaluator, and a comparison whose field is a history expression is
never satisfied. -/
theorem history_needs_provider (elp : String → Option ℚ)
    (sc : ArithOpM → RVM → RVM → Option RVM)
    (rd : String → Option RVM) (ra : String → Option (List (Option ℚ))) :
    (FilterContext_new rd ra).historyProvider = none ∧
    (∀ ctx : CtxM, ctx.historyProvider = none →
      ∀ lv rv, evaluate_history elp lv rv ctx = none) ∧
    (∀ (ctx : CtxM) (lp rp : String),
      evaluate_with_line_matching ctx .history lp rp = none) ∧
    (∀ ctx : CtxM, ctx.historyProvider = none → ∀ l r,
      evalOperand elp sc ctx (.comp .history l r) = none) ∧
    (∀ ctx : CtxM, ctx.historyProvider = none → ∀ l r op cmpv,
      evaluate_compare elp sc ctx (.computed (.comp .history l r)) op cmpv = false) := by
  have hop : ∀ ctx : CtxM, ctx.historyProvider = none → ∀ l r,
      evalOperand elp sc ctx (.comp .history l r) = none := by
    intro ctx h l r
    have hcascade : ∀ lv? rv? : Option RVM,
        (match lv? with
         | none => none
         | some lv =>
             match rv? with
             | none => none
             | some rv =>
                 if ArithOpM.history = ArithOpM.history then evaluate_history elp lv rv ctx
                 else sc ArithOpM.history lv rv) = (none : Option RVM) := by
      intro lv? rv?
      cases lv? with
      | none => rfl
      | some lv =>
          cases rv? with
          | none => rfl
          | some rv =>
              dsimp only
              rw [if_pos rfl]
              exact evaluate_history_no_provider elp ctx h lv rv
    unfold evalOperand
    cases hl : extractFieldPath l with
    | none =>
        dsimp only
        exact hcascade (evalOperand elp sc ctx l) (evalOperand elp sc ctx r)
    | some lp =>
        cases hr : extractFieldPath r with
        | none =>
            dsimp only
            exact hcascade (evalOperand elp sc ctx l) (evalOperand elp sc ctx r)
        | some rp =>
            dsimp only
            by_cases hslm : should_use_line_matching lp rp
            · rw [if_pos hslm]
              exact evaluate_with_line_matching_history ctx lp rp
            · rw [if_neg hslm]
              exact hcascade (evalOperand elp sc ctx l) (evalOperand elp sc ctx r)
  refine ⟨rfl, fun ctx h lv rv => evaluate_history_no_provider elp ctx h lv rv,
    fun ctx lp rp => evaluate_with_line_matching_history ctx lp rp, hop, ?_⟩
  intro ctx h l r op cmpv
  unfold evaluate_compare resolveFieldWithDetails
  dsimp only
  rw [hop ctx h l r]

/-- Claim C10, witness: a history comparison evaluates to absence and a
history-field compare to false under `FilterContext::new`. -/
theorem history_needs_provider_witness :
    evalOperand (fun _ => none) (fun _ _ _ => none)
      (FilterContext_new (fun _ => none) (fun _ => none))
      (.comp .history (.fieldP "bookmakers.B.x12_h") (.lit 60000)) = none ∧
    evaluate_compare (fun _ => none) (fun _ _ _ => none)
      (FilterContext_new (fun _ => none) (fun _ => none))
      (.computed (.comp .history (.fieldP "bookmakers.B.x12_h") (.lit 60000)))
      .lte (some (.lit 1)) = false := by
  have h := history_needs_provider (fun _ => none) (fun _ _ _ => none)
    (fun _ => none) (fun _ => none)
  exact ⟨h.2.2.2.1 (FilterContext_new (fun _ => none) (fun _ => none)) rfl
      (.fieldP "bookmakers.B.x12_h") (.lit 60000),
    h.2.2.2.2 (FilterContext_new (fun _ => none) (fun _ => none)) rfl
      (.fieldP "bookmakers.B.x12_h") (.lit 60000) .lte (some (.lit 1))⟩

end Avai
